import Mathlib

/-!
Verification of the skybison compiler core: a shallow embedding of
`library/_compiler.py` (CFG construction via `create_blocks`, the
definite-assignment dataflow pass `optimize_load_fast`, the printf
rewriter `rewrite_str_mod`) and `library/compiler/ssa.py` (the SSA
builder's `read_variable` / `read_variable_recursive`), together with
proofs and refutations of the specified properties.
-/

namespace Skybison

/-! ### Opcode table

Modelled from the spec: the numeric opcode table lives in the repository
module `_compiler_opcode`, which is not among the provided source files.
The spec states opcode naming and numeric encoding are a private contract
and a reimplementation "must define its own equivalent fixed opcode
table"; we use the CPython 3.8 numbering that the compiler targets, plus
fresh numbers for the two pyro-specific unchecked opcodes.  All the code
below depends only on these constants being pairwise distinct. -/

def POP_TOP : Nat := 1
def RETURN_VALUE : Nat := 83
def FOR_ITER : Nat := 93
def LOAD_CONST : Nat := 100
def JUMP_FORWARD : Nat := 110
def JUMP_IF_FALSE_OR_POP : Nat := 111
def JUMP_IF_TRUE_OR_POP : Nat := 112
def JUMP_ABSOLUTE : Nat := 113
def POP_JUMP_IF_FALSE : Nat := 114
def POP_JUMP_IF_TRUE : Nat := 115
def LOAD_GLOBAL : Nat := 116
def LOAD_FAST : Nat := 124
def STORE_FAST : Nat := 125
def DELETE_FAST : Nat := 126
def RAISE_VARARGS : Nat := 130
def CALL_FUNCTION : Nat := 131
def EXTENDED_ARG : Nat := 144
def LOAD_FAST_UNCHECKED : Nat := 148
def DELETE_FAST_UNCHECKED : Nat := 149

/-- `opcode.hasjabs`: opcodes whose operand is an absolute byte offset
(CPython 3.8 table). -/
def hasjabs : List Nat :=
  [JUMP_IF_FALSE_OR_POP, JUMP_IF_TRUE_OR_POP, JUMP_ABSOLUTE,
   POP_JUMP_IF_FALSE, POP_JUMP_IF_TRUE]

/-- `CODEUNIT_SIZE` from `_compiler_opcode`. -/
def CODEUNIT_SIZE : Nat := 2

/-! ### `BytecodeOp` (`_compiler.py` lines 213-284) -/

/-- One decoded instruction: opcode, operand and index in the stream. -/
structure Op where
  op : Nat
  arg : Nat
  idx : Nat
deriving Repr, DecidableEq

namespace Op

/-- `BytecodeOp.is_branch`. -/
def isBranch (o : Op) : Bool :=
  o.op = FOR_ITER || o.op = JUMP_ABSOLUTE || o.op = JUMP_FORWARD ||
  o.op = JUMP_IF_FALSE_OR_POP || o.op = JUMP_IF_TRUE_OR_POP ||
  o.op = POP_JUMP_IF_FALSE || o.op = POP_JUMP_IF_TRUE

/-- `BytecodeOp.is_unconditional_branch`. -/
def isUnconditionalBranch (o : Op) : Bool :=
  o.op = JUMP_ABSOLUTE || o.op = JUMP_FORWARD

/-- `BytecodeOp.is_relative_branch`. -/
def isRelativeBranch (o : Op) : Bool :=
  o.op = FOR_ITER || o.op = JUMP_FORWARD

/-- `BytecodeOp.is_other_block_terminator`. -/
def isOtherBlockTerminator (o : Op) : Bool :=
  o.op = RETURN_VALUE || o.op = RAISE_VARARGS

/-- `BytecodeOp.next_instr_idx`. -/
def nextInstrIdx (o : Op) : Nat := o.idx + 1

/-- `BytecodeOp.jump_target_idx`. -/
def jumpTargetIdx (o : Op) : Nat :=
  if o.isRelativeBranch then o.nextInstrIdx + o.arg / CODEUNIT_SIZE
  else o.arg / CODEUNIT_SIZE

/-- `BytecodeOp.successor_indices`. -/
def successorIndices (o : Op) : List Nat :=
  if o.isBranch then
    if o.isUnconditionalBranch then [o.jumpTargetIdx]
    else [o.nextInstrIdx, o.jumpTargetIdx]
  else if o.isOtherBlockTerminator then []
  else [o.nextInstrIdx]

end Op

/-! ### `create_blocks` (`_compiler.py` lines 381-416)

`create_blocks` receives a `BytecodeSlice`; at its only call site
(`optimize_load_fast`) the slice is the whole decoded instruction list,
so the embedding takes a `List Op` directly.  A basic block is a
half-open index range of the stream plus successor/predecessor links
(by block id = position in the sorted-start order, which is also the
`BlockMap` iteration order). -/

structure BB where
  id : Nat
  start : Nat
  stop : Nat
  succs : List Nat
  preds : List Nat
deriving Repr, DecidableEq

structure CFG where
  blocks : List BB
deriving Repr, DecidableEq

/-- Whether index `s` is recorded as a block start for stream `instrs`
(`create_blocks` lines 384-394: position 0, branch fallthroughs and
targets, and in-range successors of return/raise). -/
def isBlockStart (instrs : List Op) (s : Nat) : Bool :=
  s = 0 ||
  instrs.any (fun o =>
    (o.isBranch && (o.nextInstrIdx = s || o.jumpTargetIdx = s)) ||
    (o.isOtherBlockTerminator && o.nextInstrIdx = s &&
      o.nextInstrIdx < instrs.length))

/-- The sorted list of distinct block-start positions.  Python builds a
`set` and sorts it; the sorted set of starts is exactly the ascending
enumeration of the positions satisfying `isBlockStart`.  Every recorded
start is at most `len + 128` (a jump target is `arg / 2 ≤ 127` beyond
the base), so filtering `range (len + 129)`
enumerates them all. -/
def startsList (instrs : List Op) : List Nat :=
  (List.range (instrs.length + 129)).filter (isBlockStart instrs)

/-- Consecutive-start pairs `[start_i, start_{i+1})`, the final block
extending to the end of the stream (`create_blocks` lines 399-406). -/
def mkRanges (n : Nat) : List Nat → List (Nat × Nat)
  | [] => []
  | [s] => [(s, n)]
  | s :: s' :: rest => (s, s') :: mkRanges n (s' :: rest)

/-- `BytecodeSlice.last`: `self.bytecode[self.end - 1]`.  Index `stop - 1`
is modelled with `Nat` subtraction: a block's `stop` is `0` only when the
whole stream is empty (starts are positive except the first, whose `stop`
is then a later start or the length), where Python's `bytecode[-1]` also
raises `IndexError` like the out-of-range case. -/
def sliceLast (instrs : List Op) (stop : Nat) : Option Op :=
  instrs.get? (stop - 1)

/-- The successor start-indices of one block range: the in-range
successor indices of the slice's last instruction (lines 407-412). -/
def rangeSuccs (instrs : List Op) (r : Nat × Nat) :
    Except String (List Nat) :=
  match sliceLast instrs r.2 with
  | none => .error "IndexError"
  | some o => .ok ((o.successorIndices).filter (· < instrs.length))

/-- Assemble the block list from the ranges and per-range successor
start-indices: successor indices are block starts, translated to block
ids by position in the sorted start list; predecessors are linked
symmetrically (lines 407-415). -/
def mkBlockList (starts : List Nat) (ranges : List (Nat × Nat))
    (succIdxs : List (List Nat)) : List BB :=
  (List.range ranges.length).map (fun i =>
    { id := i
      start := (ranges.getD i (0, 0)).1
      stop := (ranges.getD i (0, 0)).2
      succs := (succIdxs.map (fun l => l.map (fun s => starts.indexOf s))).getD i []
      preds := (List.range ranges.length).filter
        (fun j => ((succIdxs.map (fun l =>
          l.map (fun s => starts.indexOf s))).getD j []).contains i) })

/-- `create_blocks`: partition the stream at the recorded starts, then
link successors and predecessors.  An out-of-range slice end makes the
Python code raise `IndexError` reading the slice's last instruction;
that is the `.error` case. -/
def create_blocks (instrs : List Op) : Except String CFG :=
  match (mkRanges instrs.length (startsList instrs)).mapM (rangeSuccs instrs) with
  | .error e => .error e
  | .ok succIdxs =>
    .ok ⟨mkBlockList (startsList instrs)
      (mkRanges instrs.length (startsList instrs)) succIdxs⟩

/-! ### `optimize_load_fast` (`_compiler.py` lines 419-503)

The code object fields read by the pass: `co_code` (modelled as the list
of already-decoded `(opcode, operand)` code units), `co_varnames` (only
its length, the number of local slots, matters), `co_argcount`,
`co_kwonlyargcount`, `co_flags`, plus `co_names` (never read by the
pass; kept to state claims about name-based bailouts).  `code.replace`
substitutes `co_code` and keeps everything else. -/

def CO_VARARGS : Nat := 4
def CO_VARKEYWORDS : Nat := 8

structure CodeObj where
  codeList : List (Nat × Nat)
  argcount : Nat
  kwonlyargcount : Nat
  flags : Nat
  varnames : List String
  names : List String
deriving Repr, DecidableEq

/-- `code_to_ops` (lines 365-378). -/
def codeOps (codeList : List (Nat × Nat)) : List Op :=
  codeList.enum.map (fun p => ⟨p.2.1, p.2.2, p.1⟩)

/-- The EXTENDED_ARG scan (lines 423-427), which looks at every even
byte offset, i.e. exactly the opcode component of each code unit. -/
def hasExtendedArg (codeList : List (Nat × Nat)) : Bool :=
  codeList.any (fun p => p.1 = EXTENDED_ARG)

/-- The argument-slot count (lines 442-447). -/
def argcountOf (c : CodeObj) : Nat :=
  c.argcount + c.kwonlyargcount +
    (if c.flags &&& CO_VARARGS ≠ 0 then 1 else 0) +
    (if c.flags &&& CO_VARKEYWORDS ≠ 0 then 1 else 0)

/-- Clear the bits of `m` in `x`: Python's `x & ~m` on unbounded ints. -/
def clearBits (x m : Nat) : Nat := (x ||| m) ^^^ m

/-- `meet` (lines 450-454): bitwise AND folded from `AllAssigned`. -/
def meetList (allA : Nat) (l : List Nat) : Nat := l.foldl (· &&& ·) allA

/-- The state a block starts from (lines 458-461): `ArgsAssigned` for a
block with no predecessors, otherwise the meet of predecessor
exit-states. -/
def blockIncoming (allA argsA : Nat) (b : BB) (live : List Nat) : Nat :=
  if b.preds = [] then argsA
  else meetList allA (b.preds.map (fun p => live.getD p 0))

/-- One instruction's transfer on the bitset (lines 471-474; the
`LOAD_FAST` branch is inert when `modify` is false). -/
def transferOp (x : Nat) (o : Op) : Nat :=
  if o.op = STORE_FAST then x ||| (1 <<< o.arg)
  else if o.op = DELETE_FAST then clearBits x (1 <<< o.arg)
  else x

/-- A block body's transfer: fold over the block's instruction slice
(Python's clamped list slice `bytecode[start:end]`). -/
def transferRange (ops : List Op) (start stop x : Nat) : Nat :=
  ((ops.drop start).take (stop - start)).foldl transferOp x

/-- `process_one_block` without `modify`: the block's recomputed
exit-state. -/
def blockExit (ops : List Op) (allA argsA : Nat) (b : BB)
    (live : List Nat) : Nat :=
  transferRange ops b.start b.stop (blockIncoming allA argsA b live)

/-- One `for block in blocks` sweep of the fixed-point loop (lines
481-484), updating each block's exit-state in place in block order. -/
def onePass (cfg : CFG) (ops : List Op) (allA argsA : Nat)
    (live : List Nat) : List Nat :=
  cfg.blocks.foldl (fun lv b => lv.set b.id (blockExit ops allA argsA b lv)) live

/-- The `while changed` loop (lines 480-484).  A sweep reports a change
exactly when some block's entry differs afterwards, so the loop is
`iterate until onePass live = live`.  The fuel `numBlocks * numLocals + 1`
suffices for any well-formed code object because each pass of a
descending iteration either reaches the fixed point or clears at least
one of the `numBlocks * numLocals` tracked bits, making this the
function the Python loop computes. -/
def dfLoop (cfg : CFG) (ops : List Op) (allA argsA : Nat) :
    Nat → List Nat → List Nat
  | 0, live => live
  | fuel + 1, live =>
    let live' := onePass cfg ops allA argsA live
    if live' = live then live else dfLoop cfg ops allA argsA fuel live'

/-- Ordered-set insertion: accumulating `conditionally_assigned` into an
ascending duplicate-free list gives exactly Python's
`sorted(conditionally_assigned)` at line 491. -/
def insertSorted (x : Nat) : List Nat → List Nat
  | [] => [x]
  | y :: ys =>
    if x < y then x :: y :: ys
    else if x = y then y :: ys
    else y :: insertSorted x ys

/-- One instruction of the `modify=True` sweep (lines 462-474): a
definitely-assigned `LOAD_FAST` is rewritten to `LOAD_FAST_UNCHECKED`;
an unassigned non-argument read is recorded as conditionally assigned;
stores and deletes update the running state.  The state is
`(instructions, conditionally-assigned slots, running bitset)`. -/
def modifyStep (argcount : Nat) (s : List Op × List Nat × Nat)
    (idx : Nat) : List Op × List Nat × Nat :=
  match s.1.get? idx with
  | none => s
  | some o =>
    if o.op = LOAD_FAST then
      if s.2.2.testBit o.arg then
        (s.1.set idx { o with op := LOAD_FAST_UNCHECKED }, s.2.1, s.2.2)
      else if argcount ≤ o.arg then
        (s.1, insertSorted o.arg s.2.1, s.2.2)
      else s
    else (s.1, s.2.1, transferOp s.2.2 o)

/-- `process_one_block` with `modify=True` on one block (lines 456-478):
rewrites definitely-assigned `LOAD_FAST`s to `LOAD_FAST_UNCHECKED`,
collects conditionally-assigned non-argument slots, and stores the
block's exit-state. -/
def modifyBlock (allA argsA argcount : Nat) (b : BB)
    (st : List Op × List Nat × List Nat) : List Op × List Nat × List Nat :=
  let res := (List.range' b.start (min b.stop st.1.length - b.start)).foldl
    (modifyStep argcount) (st.1, st.2.1, blockIncoming allA argsA b st.2.2)
  (res.1, res.2.1, st.2.2.set b.id res.2.2)

/-- The final `modify=True` sweep over all blocks (lines 486-487). -/
def modifyPass (cfg : CFG) (allA argsA argcount : Nat) (ops : List Op)
    (live : List Nat) : List Op × List Nat × List Nat :=
  cfg.blocks.foldl (fun st b => modifyBlock allA argsA argcount b st)
    (ops, [], live)

/-- The emission loop body (lines 494-502): shift absolute-jump operands
by the prelude length, bail (`none`) when an operand reaches 256. -/
def emitOps (shift : Nat) : List Op → Option (List (Nat × Nat))
  | [] => some []
  | o :: rest =>
    let a := if hasjabs.contains o.op then o.arg + shift else o.arg
    if 256 ≤ a then none
    else (emitOps shift rest).map ((o.op, a) :: ·)

/-- The rewritten bytecode (lines 489-503): prelude of
`DELETE_FAST_UNCHECKED` clears, then the instruction stream with
shifted absolute jumps; `none` when the operand-overflow bailout at
lines 499-501 fires. -/
def emitBytecode (cond : List Nat) (ops : List Op) :
    Option (List (Nat × Nat)) :=
  let shift := if cond.isEmpty then 0 else cond.length * CODEUNIT_SIZE
  (emitOps shift ops).map
    ((cond.map (fun s => (DELETE_FAST_UNCHECKED, s))) ++ ·)

/-- The fixed-point iteration and the rewriting sweep, after the CFG is
built (lines 430-487): initialize every block at `AllAssigned`, iterate
to the fixed point, then run the `modify=True` sweep; returns the
rewritten instruction list and the sorted conditionally-assigned
slots. -/
def olfAfterCFG (cfg : CFG) (ops : List Op) (numLocals argcount : Nat) :
    List Op × List Nat :=
  let allA := 2 ^ numLocals - 1
  let argsA := 2 ^ argcount - 1
  let live := dfLoop cfg ops allA argsA (cfg.blocks.length * numLocals + 1)
    (List.replicate cfg.blocks.length allA)
  let res := modifyPass cfg allA argsA argcount ops live
  (res.1, res.2.1)

/-- The pass up to (and including) the `modify=True` sweep: CFG
construction, the fixed-point iteration, and the rewriting sweep. -/
def olfStages (codeList : List (Nat × Nat)) (numLocals argcount : Nat) :
    Except String (List Op × List Nat) :=
  match create_blocks (codeOps codeList) with
  | .error e => .error e
  | .ok cfg => .ok (olfAfterCFG cfg (codeOps codeList) numLocals argcount)

/-- The whole pass on the fields it reads.  Result `.ok none` is a
bailout (Python `return code` at lines 426 and 501), `.ok (some (bc,
cond))` is a completed rewrite (`code.replace(co_code=...)` with the
collected conditionally-assigned slots), `.error` a propagated
exception. -/
def olfCore (codeList : List (Nat × Nat)) (numLocals argcount : Nat) :
    Except String (Option (List (Nat × Nat) × List Nat)) :=
  if hasExtendedArg codeList then .ok none
  else
    match olfStages codeList numLocals argcount with
    | .error e => .error e
    | .ok (ops', cond) =>
      match emitBytecode cond ops' with
      | none => .ok none
      | some bc => .ok (some (bc, cond))

/-- `optimize_load_fast`. -/
def optimize_load_fast (c : CodeObj) : Except String CodeObj :=
  match olfCore c.codeList c.varnames.length (argcountOf c) with
  | .error e => .error e
  | .ok none => .ok c
  | .ok (some (bc, _)) => .ok { c with codeList := bc }

/-! ### SSA builder (`compiler/ssa.py`)

The `Interpreter`'s variable-numbering state: `current_def` (variable ↦
block ↦ SSA value), the instruction store (value id ↦ opname/operands;
Python's `SSAInstruction` objects with their mutable `args`), the
per-SSA-block emission lists, the process-wide id counter, and the
current emission block `self.ssa_block`.  Variables and blocks are keyed
by `Nat` (Python keys them by object identity / oparg).  `self.cfg
.block_at(self.entry.getInstructions()[0])` — the SSA block of the
function entry — is modelled by an explicit `entry` key. -/

structure SSAInstrRec where
  opname : String
  args : List Nat
deriving Repr, DecidableEq

structure SSAState where
  currentDef : List (Nat × List (Nat × Nat))
  store : List (Nat × SSAInstrRec)
  emitted : List (Nat × List Nat)
  counter : Nat
  curBlock : Nat
deriving Repr, DecidableEq

/-- Association-list lookup (Python `dict.get` / `in`). -/
def alookup {α : Type} (k : Nat) : List (Nat × α) → Option α
  | [] => none
  | p :: ps => if p.1 = k then some p.2 else alookup k ps

/-- Association-list update (Python `d[k] = v`). -/
def aset {α : Type} (k : Nat) (v : α) : List (Nat × α) → List (Nat × α)
  | [] => [(k, v)]
  | p :: ps => if p.1 = k then (k, v) :: ps else p :: aset k v ps

/-- Association-list removal (Python `del d[k]`, key known present). -/
def aremove {α : Type} (k : Nat) : List (Nat × α) → List (Nat × α)
  | [] => []
  | p :: ps => if p.1 = k then ps else p :: aremove k ps

/-- Append to a keyed list (SSA block emission). -/
def apush (k v : Nat) (l : List (Nat × List Nat)) : List (Nat × List Nat) :=
  aset k ((alookup k l).getD [] ++ [v]) l

/-- `Interpreter.write_variable` (lines 92-95). -/
def writeVariable (var block val : Nat) (st : SSAState) : SSAState :=
  let inner := (alookup var st.currentDef).getD []
  { st with currentDef := aset var (aset block val inner) st.currentDef }

inductive SSAErr where
  | assertFail
  | keyError
  | outOfFuel
deriving Repr, DecidableEq

/-- `Interpreter.delete_variable` (lines 97-100): `del` raises
`KeyError` when the block has no recorded definition. -/
def deleteVariable (var block : Nat) (st : SSAState) :
    Except SSAErr SSAState :=
  let inner := (alookup var st.currentDef).getD []
  match alookup block inner with
  | none => .error .keyError
  | some _ =>
    .ok { st with currentDef := aset var (aremove block inner) st.currentDef }

/-- Append an operand to an in-progress phi (`phi.args.append(defn)`,
line 112). -/
def appendPhiArg (phiId v : Nat) (st : SSAState) : SSAState :=
  match alookup phiId st.store with
  | some r => { st with store := aset phiId { r with args := r.args ++ [v] } st.store }
  | none => st

mutual

/-- `Interpreter.read_variable` (lines 115-123) together with
`read_variable_recursive` (lines 102-113).  The Python recursion has no
structural bound (predecessor cycles with no definition and no multi-
predecessor join recurse forever), so the embedding takes fuel;
`.error .outOfFuel` marks exactly the runs whose Python counterpart has
not returned within that recursion depth.  `.error .assertFail` is the
`assert len(self.preds[block]) != 0` failure. -/
def readVar (preds : Nat → List Nat) (entry : Nat) :
    Nat → Nat → Nat → SSAState → Except SSAErr (Nat × SSAState)
  | 0, _, _, _ => .error .outOfFuel
  | fuel + 1, var, block, st =>
    let st1 :=
      if alookup var st.currentDef = none then
        -- lines 116-119: synthesize Undef, record it at the entry block
        let undefId := st.counter
        let st' := writeVariable var entry undefId
          { st with store := aset undefId ⟨"Undef", []⟩ st.store,
                    counter := st.counter + 1 }
        { st' with emitted := apush entry undefId st'.emitted }
      else st
    match alookup block ((alookup var st1.currentDef).getD []) with
    | some v => .ok (v, st1)
    | none =>
      match preds block with
      | [] => .error .assertFail
      | [p] => readVar preds entry fuel var p st1
      | ps =>
        -- eagerly create the phi, record it, then recurse into preds
        let phiId := st1.counter
        let st2 := writeVariable var block phiId
          { st1 with store := aset phiId ⟨"Phi", []⟩ st1.store,
                     counter := st1.counter + 1,
                     emitted := apush st1.curBlock phiId st1.emitted }
        match readVarPreds preds entry fuel var phiId ps st2 with
        | .error e => .error e
        | .ok stF => .ok (phiId, stF)
termination_by fuel _ _ _ => (fuel, 0)

/-- The `for pred in self.preds[block]` loop of
`read_variable_recursive` (lines 110-112). -/
def readVarPreds (preds : Nat → List Nat) (entry : Nat) :
    Nat → Nat → Nat → List Nat → SSAState → Except SSAErr SSAState
  | _, _, _, [], st => .ok st
  | fuel, var, phiId, p :: ps, st =>
    match readVar preds entry fuel var p st with
    | .error e => .error e
    | .ok (v, st') =>
      readVarPreds preds entry fuel var phiId ps (appendPhiArg phiId v st')
termination_by fuel _ _ ps _ => (fuel, ps.length + 1)

end

/-! ### Printf rewriter (`_compiler.py` lines 18-189)

A small expression AST with the node shapes `rewrite_str_mod` consumes
and produces (`Str`, `Num`, `Tuple`, names, `FormattedValue`,
`JoinedStr`, and the `''.method(...)` / subscript helpers built by
`create_conversion_call`).  Format strings are `List Char`. -/

inductive PExpr where
  | str (s : List Char)
  | num (n : Int)
  | tuple (elts : List PExpr)
  | name (id : String)
  | fval (value : PExpr) (conversion : Int) (spec : Option PExpr)
  | joined (vals : List PExpr)
  | attr (obj : PExpr) (field : String)
  | call (f : PExpr) (args : List PExpr)
  | subscript (obj : PExpr) (index : PExpr)
deriving Repr

inductive PVal where
  | int (n : Int)
  | str (s : List Char)
  | tup (l : List PVal)
deriving Repr

/-- Modelled from the spec: `is_const` comes from the vendored
`compiler.optimizer` module, which is not among the provided sources;
per the spec's constant-folding description it recognizes literal
constant nodes (string and number literals here). -/
def is_const : PExpr → Bool
  | .str _ => true
  | .num _ => true
  | _ => false

/-- Modelled from the spec: `get_const_value` (vendored
`compiler.optimizer`), the literal's value. -/
def get_const_value : PExpr → PVal
  | .str s => .str s
  | .num n => .int n
  | _ => .int 0

/-- Modelled from the spec: `makeConstTuple` (vendored compiler) —
a tuple literal whose elements are all constants folds to a constant
tuple value, otherwise `None`. -/
def makeConstTuple (es : List PExpr) : Option PVal :=
  if es.all is_const then some (.tup (es.map get_const_value)) else none

def printfLetters : List Char := ['d', 'i', 'u', 'c', 's', 'r', 'a', 'x', 'X', 'o']

/-- Modelled from the spec: one conversion of CPython's builtin
`str.__mod__` (an external collaborator of the compiler).  This is a
deliberate fragment — only plain `%d %i %u %c %s %r %x %X %o` on
integer and simple string values; anything else is `none`, i.e. treated
as the exception path.  Where it returns `some`, it agrees with
CPython. -/
def conv1 : Char → PVal → Option (List Char)
  | 'd', .int n => some (toString n).toList
  | 'i', .int n => some (toString n).toList
  | 'u', .int n => some (toString n).toList
  | 'c', .int n =>
    if 0 ≤ n ∧ n < 1114112 then some [Char.ofNat n.toNat] else none
  | 'c', .str s => if s.length = 1 then some s else none
  | 's', .int n => some (toString n).toList
  | 's', .str s => some s
  | 'r', .int n => some (toString n).toList
  | 'r', .str s =>
    if s.all (fun c => c ≠ '\'' ∧ c ≠ '\\' ∧ 32 ≤ c.toNat ∧ c.toNat < 127)
    then some ('\'' :: s ++ ['\'']) else none
  | 'a', .int n => some (toString n).toList
  | 'a', .str s =>
    if s.all (fun c => c ≠ '\'' ∧ c ≠ '\\' ∧ 32 ≤ c.toNat ∧ c.toNat < 127)
    then some ('\'' :: s ++ ['\'']) else none
  | 'x', .int n => if 0 ≤ n then some (Nat.toDigits 16 n.toNat) else none
  | 'X', .int n =>
    if 0 ≤ n then some ((Nat.toDigits 16 n.toNat).map Char.toUpper) else none
  | 'o', .int n => if 0 ≤ n then some (Nat.toDigits 8 n.toNat) else none
  | _, _ => none

/-- Modelled from the spec: CPython `str.__mod__` on the supported
fragment; `none` plays the role of a raised exception (caught by the
rewriter's `try`). -/
def strMod (fmt : List Char) (v : PVal) : Option (List Char) :=
  go fmt (match v with | .tup l => l | x => [x])
where
  go : List Char → List PVal → Option (List Char)
    | [], [] => some []
    | [], _ :: _ => none
    | '%' :: rest, args =>
      match rest, args with
      | [], _ => none
      | '%' :: r, args => (go r args).map ('%' :: ·)
      | c :: r, a :: args' =>
        if c ∈ printfLetters then
          match conv1 c a, go r args' with
          | some s, some t => some (s ++ t)
          | _, _ => none
        else none
      | _ :: _, [] => none
    | ch :: rest, args => (go rest args).map (ch :: ·)

/-- The guarded constant-folding attempt (`rewrite_str_mod` lines
35-43): fold a constant right-hand side, or a tuple of constants, into
a single string literal; any failure falls through to the scanner. -/
def foldAttempt (fmt : List Char) (right : PExpr) : Option PExpr :=
  if is_const right then (strMod fmt (get_const_value right)).map .str
  else
    match right with
    | .tuple es =>
      match makeConstTuple es with
      | some v => (strMod fmt v).map .str
      | none => none
    | _ => none

/-- The first scanning loop (lines 44-66): count conversion specifiers,
failing (`none`, i.e. `return None`) on a trailing unescaped `%` or a
mapping-key `%(`. -/
def countSpecs : List Char → Option Nat
  | [] => some 0
  | c :: rest =>
    if c = '%' then
      match rest with
      | [] => none
      | c2 :: rest2 =>
        if c2 = '%' then countSpecs rest2
        else if c2 = '(' then none
        else (countSpecs rest2).map (· + 1)
    else countSpecs rest

/-- The flags-and-width parse of the second loop (lines 102-130): a run
of `0` flags, then an optional width, then the conversion character;
`none` when the string ends mid-parse.  Returns
`(spec_str, have_width, conversion char, remaining)`. -/
def parseSpec (l : List Char) : Option (List Char × Bool × Char × List Char) :=
  match l.dropWhile (· = '0') with
  | [] => none
  | c1 :: r2 =>
    if '1' ≤ c1 ∧ c1 ≤ '9' then
      match r2.dropWhile (fun c => '0' ≤ c ∧ c ≤ '9') with
      | [] => none
      | conv :: r4 =>
        some (l.takeWhile (· = '0') ++
            c1 :: r2.takeWhile (fun c => '0' ≤ c ∧ c ≤ '9'),
          true, conv, r4)
    else some (l.takeWhile (· = '0'), false, c1, r2)

theorem parseSpec_length {l : List Char} {s : List Char} {hw : Bool}
    {c : Char} {r : List Char} (h : parseSpec l = some (s, hw, c, r)) :
    r.length < l.length := by
  unfold parseSpec at h
  rcases hd : l.dropWhile (· = '0') with _ | ⟨c1, r2⟩ <;> rw [hd] at h
  · simp at h
  · have hr2 : r2.length < l.length := by
      have h1 := (List.dropWhile_sublist (l := l) (· = '0')).length_le
      rw [hd] at h1
      simpa using Nat.lt_of_lt_of_le (Nat.lt_succ_self _) h1
    dsimp only at h
    by_cases hc : '1' ≤ c1 ∧ c1 ≤ '9'
    · rw [if_pos hc] at h
      rcases hd2 : r2.dropWhile (fun c => '0' ≤ c ∧ c ≤ '9') with _ | ⟨cv, r4⟩ <;>
        rw [hd2] at h
      · simp at h
      · have h2 := (List.dropWhile_sublist (l := r2)
          (fun c => '0' ≤ c ∧ c ≤ '9')).length_le
        rw [hd2] at h2
        obtain ⟨-, -, -, rfl⟩ := by simpa using h
        exact Nat.lt_of_le_of_lt
          (Nat.le_of_lt (Nat.lt_of_lt_of_le (Nat.lt_succ_self _) h2)) hr2
    · rw [if_neg hc] at h
      obtain ⟨-, -, -, rfl⟩ := by simpa using h
      exact hr2

/-- `create_conversion_call` (lines 22-24). -/
def create_conversion_call (name : String) (value : PExpr) : PExpr :=
  .call (.attr (.str []) name) [value]

/-- The single-argument normalization `''._mod_check_single_arg(rhs)[0]`
(lines 143-146). -/
def singleArgValue (rhs : PExpr) : PExpr :=
  .subscript (create_conversion_call "_mod_check_single_arg" rhs) (.num 0)

/-- Flush a pending literal segment (lines 92-95, 184-187). -/
def flushSeg (seg : List Char) : List PExpr :=
  if seg = [] then [] else [.str seg]

/-- The formatted-value node built for one conversion (lines 138-177),
or `none` for an unknown conversion letter. -/
def specNode (rhsVals : Option (List PExpr)) (rhs : PExpr)
    (numValues valueIdx : Nat) (spec : List Char) (haveWidth : Bool)
    (conv : Char) : Option PExpr :=
  let value? : Option PExpr :=
    match rhsVals with
    | some vals =>
      if numValues ≤ valueIdx then none
      else some (vals.getD valueIdx (.num 0))
    | none => some (singleArgValue rhs)
  match value? with
  | none => none
  | some value =>
    if conv = 's' ∨ conv = 'r' ∨ conv = 'a' then
      let spec' := if haveWidth then '>' :: spec else spec
      some (.fval value (Int.ofNat conv.toNat)
        (if spec' = [] then none else some (.str spec')))
    else if conv = 'd' ∨ conv = 'i' ∨ conv = 'u' then
      some (.fval (create_conversion_call "_mod_convert_number_int" value)
        (-1) (if spec = [] then none else some (.str spec)))
    else if conv = 'x' ∨ conv = 'X' ∨ conv = 'o' then
      some (.fval (create_conversion_call "_mod_convert_number_index" value)
        (-1) (some (.str (spec ++ [conv]))))
    else none

/-- The second scanning loop (lines 81-189): emit literal segments and
formatted values, consuming one right-hand-side value per conversion.
`none` is any of the loop's `return None` bailouts.  Returns the
collected nodes and the final `value_idx`.  A subtlety faithfully kept:
when the parsed conversion character is `%` (an escaped percent,
possibly after `0` flags), the next literal segment restarts at the `%`
character itself and no value is consumed. -/
def emitLoop (rhsVals : Option (List PExpr)) (rhs : PExpr)
    (numValues : Nat) :
    List Char → Nat → List Char → List PExpr → Option (List PExpr × Nat)
  | [], valueIdx, seg, acc => some (acc ++ flushSeg seg, valueIdx)
  | c :: rest, valueIdx, seg, acc =>
    if c = '%' then
      let acc1 := acc ++ flushSeg seg
      match hps : parseSpec rest with
      | none => none
      | some (spec, haveWidth, conv, rest') =>
        if conv = '%' then
          emitLoop rhsVals rhs numValues rest' valueIdx ['%'] acc1
        else
          match specNode rhsVals rhs numValues valueIdx spec haveWidth conv with
          | none => none
          | some node =>
            emitLoop rhsVals rhs numValues rest' (valueIdx + 1) [] (acc1 ++ [node])
    else emitLoop rhsVals rhs numValues rest valueIdx (seg ++ [c]) acc
termination_by fmt _ _ _ => fmt.length
decreasing_by
  all_goals simp only [List.length_cons]
  · exact Nat.lt_succ_of_lt (parseSpec_length hps)
  · exact Nat.lt_succ_of_lt (parseSpec_length hps)
  · exact Nat.lt_succ_self _

/-- `isinstance(right, ast.Tuple)` together with `.elts` (lines
69-71). -/
def tupleElts : PExpr → Option (List PExpr)
  | .tuple es => some es
  | _ => none

/-- `AstOptimizerPyro.rewrite_str_mod` (lines 33-189). -/
def rewrite_str_mod (fmt : List Char) (right : PExpr) : Option PExpr :=
  match foldAttempt fmt right with
  | some e => some e
  | none =>
    match countSpecs fmt with
    | none => none
    | some nSpec =>
      match tupleElts right with
      | some es =>
        match emitLoop (some es) right es.length fmt 0 [] [] with
        | none => none
        | some (strs, vIdx) =>
          if vIdx ≠ es.length then none else some (.joined strs)
      | none =>
        if nSpec ≠ 1 then none
        else
          match emitLoop none right 1 fmt 0 [] [] with
          | none => none
          | some (strs, vIdx) =>
            if vIdx ≠ 1 then none else some (.joined strs)

/-- Modelled from the spec: the conversion letters the rewriter's
emission loop knows (`s r a d i u x X o`, lines 147-176); any other
letter is an "unknown conversion letter" in the claim's sense. -/
def knownCv (c : Char) : Bool :=
  c == 's' || c == 'r' || c == 'a' || c == 'd' || c == 'i' ||
  c == 'u' || c == 'x' || c == 'X' || c == 'o'

/-- Modelled from the spec: the format string contains a trailing
unescaped `%` or a mapping-key `%(` — the malformations the first
scanning loop rejects. -/
def fmtBadScan : List Char → Bool
  | [] => false
  | c :: rest =>
    if c = '%' then
      match rest with
      | [] => true
      | c2 :: rest2 =>
        if c2 = '%' then fmtBadScan rest2
        else if c2 = '(' then true
        else fmtBadScan rest2
    else fmtBadScan rest

/-- Modelled from the spec: the format string contains a conversion
specifier whose (flags-and-width-parsed) conversion character is
neither `%` nor one of the letters the emission loop handles. -/
def hasUnknownCv : List Char → Bool
  | [] => false
  | c :: rest =>
    if c = '%' then
      match hps : parseSpec rest with
      | none => false
      | some (_, _, conv, rest') =>
        if conv = '%' then hasUnknownCv rest'
        else if knownCv conv then hasUnknownCv rest'
        else true
    else hasUnknownCv rest
termination_by l => l.length
decreasing_by
  all_goals simp only [List.length_cons]
  · exact Nat.lt_succ_of_lt (parseSpec_length hps)
  · exact Nat.lt_succ_of_lt (parseSpec_length hps)
  · exact Nat.lt_succ_self _

/-- Modelled from the spec: the number of right-hand-side values the
emission loop consumes — one per handled conversion, none for an
escaped `%` — or `none` when some specifier is malformed or unknown.
This is the claim's "specifier count" as the emission loop actually
counts it. -/
def specConsume : List Char → Option Nat
  | [] => some 0
  | c :: rest =>
    if c = '%' then
      match hps : parseSpec rest with
      | none => none
      | some (_, _, conv, rest') =>
        if conv = '%' then specConsume rest'
        else if knownCv conv then (specConsume rest').map (· + 1)
        else none
    else specConsume rest
termination_by l => l.length
decreasing_by
  all_goals simp only [List.length_cons]
  · exact Nat.lt_succ_of_lt (parseSpec_length hps)
  · exact Nat.lt_succ_of_lt (parseSpec_length hps)
  · exact Nat.lt_succ_self _

/-! ## Theorems -/

/-! ### C7: incoming state of predecessor-less blocks -/

/-- C7: in the definite-assignment dataflow, a block with no
predecessors (in particular the entry block) starts from exactly the
argument slots: bit `i` of its incoming state is set iff `i` is below
the argument count, which is positional arguments plus keyword-only
arguments plus one for a variadic-positional parameter if present plus
one for a variadic-keyword parameter if present — these occupy the
first slots, and no other slot is marked assigned. -/
theorem C7_no_pred_entry_state (c : CodeObj) (allA : Nat) (b : BB)
    (live : List Nat) (h : b.preds = []) (i : Nat) :
    (blockIncoming allA (2 ^ argcountOf c - 1) b live).testBit i =
      decide (i < c.argcount + c.kwonlyargcount +
        (if c.flags &&& CO_VARARGS ≠ 0 then 1 else 0) +
        (if c.flags &&& CO_VARKEYWORDS ≠ 0 then 1 else 0)) := by
  unfold blockIncoming argcountOf
  rw [if_pos h, Nat.testBit_two_pow_sub_one]

def c7ex : CodeObj := ⟨[], 1, 1, 12, ["a", "b", "c", "d", "e"], []⟩

def c7bb : BB := ⟨0, 0, 0, [], []⟩

/-- Witness for C7 at a concrete code object (1 positional, 1
keyword-only, varargs and varkeywords flags both set: 4 argument
slots) and a block with no predecessors. -/
theorem C7_no_pred_entry_state_witness :
    (blockIncoming 31 (2 ^ argcountOf c7ex - 1) c7bb []).testBit 3 =
      decide (3 < c7ex.argcount + c7ex.kwonlyargcount +
        (if c7ex.flags &&& CO_VARARGS ≠ 0 then 1 else 0) +
        (if c7ex.flags &&& CO_VARKEYWORDS ≠ 0 then 1 else 0)) :=
  C7_no_pred_entry_state c7ex 31 c7bb [] rfl 3

/-! ### C2: `optimize_load_fast` bailouts return the input -/

/-- C2: `optimize_load_fast` returns its input code object unchanged —
no opcode rewritten, no prelude inserted, no jump operand changed —
both when the bytecode contains an `EXTENDED_ARG` opcode anywhere and
when the final rewrite emission finds an operand that is at least 256
after the prelude shift (`emitBytecode` bails). -/
theorem C2_bailout_returns_input (c : CodeObj) :
    (hasExtendedArg c.codeList = true → optimize_load_fast c = .ok c) ∧
    (∀ ops' cond,
      olfStages c.codeList c.varnames.length (argcountOf c) = .ok (ops', cond) →
      emitBytecode cond ops' = none → optimize_load_fast c = .ok c) := by
  constructor
  · intro h
    simp [optimize_load_fast, olfCore, h]
  · intro ops' cond h1 h2
    by_cases hE : hasExtendedArg c.codeList
    · simp [optimize_load_fast, olfCore, hE]
    · simp [optimize_load_fast, olfCore, hE, h1, h2]

def c2ext : CodeObj :=
  ⟨[(EXTENDED_ARG, 1), (LOAD_FAST, 0), (RETURN_VALUE, 0)], 1, 0, 0, ["x"], []⟩

def c2over : CodeObj :=
  ⟨[(LOAD_FAST, 0), (LOAD_CONST, 300), (RETURN_VALUE, 0)], 0, 0, 0, ["x"], []⟩

/-- Witness for C2: a code object with an `EXTENDED_ARG` prefix, and
one where emission overflows an operand (the conditionally-assigned
slot 0 makes the prelude nonempty and the 300 operand bails), both
returned unchanged. -/
theorem C2_bailout_returns_input_witness :
    optimize_load_fast c2ext = .ok c2ext ∧
    optimize_load_fast c2over = .ok c2over :=
  ⟨(C2_bailout_returns_input c2ext).1 (by rfl),
   (C2_bailout_returns_input c2over).2
     (codeOps [(LOAD_FAST, 0), (LOAD_CONST, 300), (RETURN_VALUE, 0)]) [0]
     (by rfl) (by rfl)⟩

/-! ### C3: there is no locals() bailout in the definite-assignment pass -/

/-- Modelled from the spec: "uses a read-all-local-variable-bindings
reflective operation anywhere in the unit" — the unit's bytecode loads
the global named `locals` (the builtin that returns all local
bindings).  The spec names this as a bailout condition; the code of
`optimize_load_fast` contains no such check. -/
def usesLocals (c : CodeObj) : Bool :=
  c.codeList.any (fun p => p.1 = LOAD_GLOBAL && c.names.getD p.2 "" = "locals")

def c3ex : CodeObj :=
  ⟨[(LOAD_GLOBAL, 0), (CALL_FUNCTION, 0), (POP_TOP, 0), (LOAD_FAST, 0),
    (RETURN_VALUE, 0)], 1, 0, 0, ["a"], ["locals"]⟩

/-- Counterexample to C3: a unit that calls `locals()` and still gets
its definitely-assigned read rewritten to `LOAD_FAST_UNCHECKED` — the
pass performs rewriting despite the reflective read of all local
bindings. -/
theorem C3_counterexample :
    usesLocals c3ex = true ∧
    optimize_load_fast c3ex = .ok { c3ex with codeList :=
      [(LOAD_GLOBAL, 0), (CALL_FUNCTION, 0), (POP_TOP, 0),
       (LOAD_FAST_UNCHECKED, 0), (RETURN_VALUE, 0)] } :=
  ⟨by rfl, by rfl⟩

/-- C3 amended: `optimize_load_fast` performs its rewriting entirely
independently of the unit's name references — its result does not
depend on `co_names` at all, so in particular there is no bailout for
units that use the `locals()` reflective operation (that heuristic
exists only in the comprehension-inlining code, not in this pass). -/
theorem C3_amended_names_irrelevant (c : CodeObj) (ns : List String) :
    optimize_load_fast { c with names := ns } =
      (optimize_load_fast c).map (fun c' => { c' with names := ns }) := by
  unfold optimize_load_fast
  rcases h : olfCore c.codeList c.varnames.length (argcountOf c) with e | o
  · simp only [show ({ c with names := ns } : CodeObj).codeList = c.codeList from rfl,
      show ({ c with names := ns } : CodeObj).varnames = c.varnames from rfl,
      show argcountOf { c with names := ns } = argcountOf c from rfl, h]
    rfl
  · rcases o with _ | ⟨bc, cond⟩ <;>
      simp only [show ({ c with names := ns } : CodeObj).codeList = c.codeList from rfl,
        show ({ c with names := ns } : CodeObj).varnames = c.varnames from rfl,
        show argcountOf { c with names := ns } = argcountOf c from rfl, h] <;>
      rfl

/-! ### C5: direction of the fixed-point iteration

The iteration starts every block at `AllAssigned` (top) and descends:
bits are only ever cleared, never gained, once the usual well-formedness
of the code object holds (argument slots fit among the locals, stored
slots are in range).  The claim as frozen asserts the opposite
direction and is refuted below on a one-block program whose single
`AllAssigned` bit is dropped by the first sweep. -/

/-- Bitset inclusion: every set bit of `x` is set in `y`. -/
def bitsub (x y : Nat) : Prop := ∀ i, x.testBit i = true → y.testBit i = true

theorem bitsub_refl (x : Nat) : bitsub x x := fun _ h => h

theorem bitsub_trans {x y z : Nat} (h1 : bitsub x y) (h2 : bitsub y z) :
    bitsub x z := fun i h => h2 i (h1 i h)

theorem clearBits_testNat (x m i : Nat) :
    (clearBits x m).testBit i = (x.testBit i && !(m.testBit i)) := by
  unfold clearBits
  rw [Nat.testBit_xor, Nat.testBit_or]
  cases x.testBit i <;> cases m.testBit i <;> rfl

theorem transferOp_mono {x y : Nat} (o : Op) (h : bitsub x y) :
    bitsub (transferOp x o) (transferOp y o) := by
  unfold transferOp
  split
  · intro i hi
    rw [Nat.testBit_or] at hi ⊢
    rcases Bool.or_eq_true_iff.mp hi with h1 | h1
    · exact Bool.or_eq_true_iff.mpr (Or.inl (h i h1))
    · exact Bool.or_eq_true_iff.mpr (Or.inr h1)
  · split
    · intro i hi
      rw [clearBits_testNat] at hi ⊢
      rcases Bool.and_eq_true_iff.mp hi with ⟨h1, h2⟩
      exact Bool.and_eq_true_iff.mpr ⟨h i h1, h2⟩
    · exact h

theorem transferOp_bound {allA x : Nat} (o : Op) (hx : bitsub x allA)
    (hbit : o.op = STORE_FAST → allA.testBit o.arg = true) :
    bitsub (transferOp x o) allA := by
  unfold transferOp
  split
  · intro i hi
    rw [Nat.testBit_or] at hi
    rcases Bool.or_eq_true_iff.mp hi with h1 | h1
    · exact hx i h1
    · have : (2 ^ o.arg).testBit i = true := by
        rwa [Nat.shiftLeft_eq, one_mul] at h1
      rw [Nat.testBit_two_pow] at this
      have := of_decide_eq_true this
      subst this
      exact hbit (by assumption)
  · split
    · intro i hi
      rw [clearBits_testNat] at hi
      exact hx i (Bool.and_eq_true_iff.mp hi).1
    · exact hx

theorem foldl_transferOp_mono (l : List Op) {x y : Nat} (h : bitsub x y) :
    bitsub (l.foldl transferOp x) (l.foldl transferOp y) := by
  induction l generalizing x y with
  | nil => exact h
  | cons o l ih => exact ih (transferOp_mono o h)

theorem foldl_transferOp_bound {allA : Nat} (l : List Op) {x : Nat}
    (hx : bitsub x allA)
    (hl : ∀ o ∈ l, o.op = STORE_FAST → allA.testBit o.arg = true) :
    bitsub (l.foldl transferOp x) allA := by
  induction l generalizing x with
  | nil => exact hx
  | cons o l ih =>
    exact ih (transferOp_bound o hx (hl o (List.mem_cons_self o l)))
      (fun o' ho' => hl o' (List.mem_cons_of_mem o ho'))

theorem meetList_bound (allA : Nat) (l : List Nat) :
    bitsub (meetList allA l) allA := by
  unfold meetList
  suffices h : ∀ acc, bitsub acc allA → bitsub (l.foldl (· &&& ·) acc) allA from
    h allA (bitsub_refl allA)
  induction l with
  | nil => exact fun acc h => h
  | cons a l ih =>
    intro acc hacc
    refine ih (acc &&& a) (fun i hi => ?_)
    rw [Nat.testBit_and] at hi
    exact hacc i (Bool.and_eq_true_iff.mp hi).1

/-- Pointwise bit-inclusion of dataflow states. -/
def liveLE (s t : List Nat) : Prop := ∀ p, bitsub (s.getD p 0) (t.getD p 0)

theorem liveLE_refl (s : List Nat) : liveLE s s := fun _ => bitsub_refl _

theorem liveLE_trans {s t u : List Nat} (h1 : liveLE s t) (h2 : liveLE t u) :
    liveLE s u := fun p => bitsub_trans (h1 p) (h2 p)

theorem meetList_map_mono (allA : Nat) (ps : List Nat) {lv lv' : List Nat}
    (h : liveLE lv lv') :
    bitsub (meetList allA (ps.map (fun p => lv.getD p 0)))
      (meetList allA (ps.map (fun p => lv'.getD p 0))) := by
  unfold meetList
  suffices hgen : ∀ (acc acc' : Nat), bitsub acc acc' →
      bitsub ((ps.map (fun p => lv.getD p 0)).foldl (· &&& ·) acc)
        ((ps.map (fun p => lv'.getD p 0)).foldl (· &&& ·) acc') from
    hgen allA allA (bitsub_refl allA)
  induction ps with
  | nil => exact fun _ _ h => h
  | cons p ps ih =>
    intro acc acc' hacc
    refine ih _ _ (fun i hi => ?_)
    rw [Nat.testBit_and] at hi ⊢
    rcases Bool.and_eq_true_iff.mp hi with ⟨h1, h2⟩
    exact Bool.and_eq_true_iff.mpr ⟨hacc i h1, h p i h2⟩

theorem blockIncoming_mono (allA argsA : Nat) (b : BB) {lv lv' : List Nat}
    (h : liveLE lv lv') :
    bitsub (blockIncoming allA argsA b lv) (blockIncoming allA argsA b lv') := by
  unfold blockIncoming
  split
  · exact bitsub_refl _
  · exact meetList_map_mono allA b.preds h

theorem blockIncoming_bound {allA argsA : Nat} (hargs : bitsub argsA allA)
    (b : BB) (lv : List Nat) :
    bitsub (blockIncoming allA argsA b lv) allA := by
  unfold blockIncoming
  split
  · exact hargs
  · exact meetList_bound allA _

/-- Membership in a block's instruction slice implies membership in the
stream. -/
theorem mem_slice_mem {ops : List Op} {start stop : Nat} {o : Op}
    (h : o ∈ (ops.drop start).take (stop - start)) : o ∈ ops :=
  List.mem_of_mem_drop (List.mem_of_mem_take h)

theorem blockExit_mono (ops : List Op) (allA argsA : Nat) (b : BB)
    {lv lv' : List Nat} (h : liveLE lv lv') :
    bitsub (blockExit ops allA argsA b lv) (blockExit ops allA argsA b lv') := by
  unfold blockExit transferRange
  exact foldl_transferOp_mono _ (blockIncoming_mono allA argsA b h)

theorem blockExit_bound {ops : List Op} {allA argsA : Nat}
    (hargs : bitsub argsA allA)
    (hstore : ∀ o ∈ ops, o.op = STORE_FAST → allA.testBit o.arg = true)
    (b : BB) (lv : List Nat) :
    bitsub (blockExit ops allA argsA b lv) allA := by
  unfold blockExit transferRange
  exact foldl_transferOp_bound _ (blockIncoming_bound hargs b lv)
    (fun o ho => hstore o (mem_slice_mem ho))

/-- The well-formedness of block ids produced by `create_blocks`: ids
enumerate positions. -/
def idsCanonical (cfg : CFG) : Prop :=
  cfg.blocks.map BB.id = List.range cfg.blocks.length

theorem idsCanonical_lt {cfg : CFG} (h : idsCanonical cfg) {b : BB}
    (hb : b ∈ cfg.blocks) : b.id < cfg.blocks.length := by
  have : b.id ∈ cfg.blocks.map BB.id := List.mem_map_of_mem BB.id hb
  rw [h] at this
  exact List.mem_range.mp this

theorem idsCanonical_inj {cfg : CFG} (h : idsCanonical cfg) {b c : BB}
    (hb : b ∈ cfg.blocks) (hc : c ∈ cfg.blocks) (hid : b.id = c.id) :
    b = c := by
  obtain ⟨i, hi, rfl⟩ := List.mem_iff_getElem.mp hb
  obtain ⟨j, hj, rfl⟩ := List.mem_iff_getElem.mp hc
  have hbi : (cfg.blocks[i]).id = i := by
    have := congrArg (fun l => l.getD i 0) h
    simpa [List.getD, List.getElem?_map, List.getElem?_eq_getElem, hi,
      List.getElem?_range, show i < cfg.blocks.length from hi] using this
  have hcj : (cfg.blocks[j]).id = j := by
    have := congrArg (fun l => l.getD j 0) h
    simpa [List.getD, List.getElem?_map, List.getElem?_eq_getElem, hj,
      List.getElem?_range, show j < cfg.blocks.length from hj] using this
  have : i = j := by rw [← hbi, ← hcj]; exact hid
  subst this
  rfl

/-- The pre-fixpoint invariant of the iteration: every block's
recomputed exit-state is below its current one. -/
def dfInv (cfg : CFG) (ops : List Op) (allA argsA : Nat) (s : List Nat) :
    Prop :=
  ∀ b ∈ cfg.blocks, bitsub (blockExit ops allA argsA b s) (s.getD b.id 0)

theorem getD_set_self {α : Type} {l : List α} {i : Nat} {v d : α}
    (h : i < l.length) : (l.set i v).getD i d = v := by
  simp [List.getD, List.getElem?_set, h]

theorem getD_set_ne {α : Type} {l : List α} {i j : Nat} {v d : α}
    (h : i ≠ j) : (l.set i v).getD j d = l.getD j d := by
  simp [List.getD, List.getElem?_set, h]

theorem step_liveLE {cfg : CFG} {ops : List Op} {allA argsA : Nat}
    {s : List Nat} (hInv : dfInv cfg ops allA argsA s) {b : BB}
    (hb : b ∈ cfg.blocks) :
    liveLE (s.set b.id (blockExit ops allA argsA b s)) s := by
  intro p
  by_cases hp : b.id = p
  · subst hp
    by_cases hlen : b.id < s.length
    · rw [getD_set_self hlen]
      exact hInv b hb
    · rw [List.set_eq_of_length_le (Nat.le_of_not_lt hlen)]
      exact bitsub_refl _
  · rw [getD_set_ne hp]
    exact bitsub_refl _

theorem step_preserves_inv {cfg : CFG} {ops : List Op} {allA argsA : Nat}
    (hid : idsCanonical cfg) {s : List Nat}
    (hInv : dfInv cfg ops allA argsA s) {b : BB} (hb : b ∈ cfg.blocks) :
    dfInv cfg ops allA argsA (s.set b.id (blockExit ops allA argsA b s)) := by
  intro c hc
  have hle : liveLE (s.set b.id (blockExit ops allA argsA b s)) s :=
    step_liveLE hInv hb
  have hmono := blockExit_mono ops allA argsA c hle
  by_cases hcb : c.id = b.id
  · have hceqb : c = b := idsCanonical_inj hid hc hb hcb
    subst hceqb
    by_cases hlen : c.id < s.length
    · rw [getD_set_self hlen]
      exact hmono
    · rw [List.set_eq_of_length_le (Nat.le_of_not_lt hlen)] at hmono ⊢
      exact bitsub_trans hmono (hInv c hc)
  · rw [getD_set_ne (fun h => hcb h.symm)]
    exact bitsub_trans hmono (hInv c hc)

theorem foldl_steps {cfg : CFG} {ops : List Op} {allA argsA : Nat}
    (hid : idsCanonical cfg) (bl : List BB)
    (hbl : ∀ b ∈ bl, b ∈ cfg.blocks) {s : List Nat}
    (hInv : dfInv cfg ops allA argsA s) :
    liveLE (bl.foldl (fun lv b => lv.set b.id (blockExit ops allA argsA b lv)) s) s ∧
    dfInv cfg ops allA argsA
      (bl.foldl (fun lv b => lv.set b.id (blockExit ops allA argsA b lv)) s) := by
  induction bl generalizing s with
  | nil => exact ⟨liveLE_refl s, hInv⟩
  | cons b bl ih =>
    have hb : b ∈ cfg.blocks := hbl b (List.mem_cons_self b bl)
    have h1 : liveLE (s.set b.id (blockExit ops allA argsA b s)) s :=
      step_liveLE hInv hb
    have h2 := step_preserves_inv hid hInv hb
    obtain ⟨h3, h4⟩ := ih (fun c hc => hbl c (List.mem_cons_of_mem b hc)) h2
    exact ⟨liveLE_trans h3 h1, h4⟩

theorem onePass_descending {cfg : CFG} {ops : List Op} {allA argsA : Nat}
    (hid : idsCanonical cfg) {s : List Nat}
    (hInv : dfInv cfg ops allA argsA s) :
    liveLE (onePass cfg ops allA argsA s) s ∧
    dfInv cfg ops allA argsA (onePass cfg ops allA argsA s) :=
  foldl_steps hid cfg.blocks (fun _ hb => hb) hInv

theorem dfInv_init {cfg : CFG} {ops : List Op} {allA argsA : Nat}
    (hid : idsCanonical cfg) (hargs : bitsub argsA allA)
    (hstore : ∀ o ∈ ops, o.op = STORE_FAST → allA.testBit o.arg = true) :
    dfInv cfg ops allA argsA (List.replicate cfg.blocks.length allA) := by
  intro b hb
  have hlt : b.id < cfg.blocks.length := idsCanonical_lt hid hb
  have : (List.replicate cfg.blocks.length allA).getD b.id 0 = allA := by
    simp [List.getD, List.getElem?_replicate, hlt]
  rw [this]
  exact blockExit_bound hargs hstore b _

theorem dfIter_inv {cfg : CFG} {ops : List Op} {allA argsA : Nat}
    (hid : idsCanonical cfg) (hargs : bitsub argsA allA)
    (hstore : ∀ o ∈ ops, o.op = STORE_FAST → allA.testBit o.arg = true)
    (k : Nat) :
    dfInv cfg ops allA argsA
      ((onePass cfg ops allA argsA)^[k]
        (List.replicate cfg.blocks.length allA)) := by
  induction k with
  | zero => exact dfInv_init hid hargs hstore
  | succ k ih =>
    rw [Function.iterate_succ_apply']
    exact (onePass_descending hid ih).2

/-- C5 corrected: across successive sweeps of the fixed-point
iteration (started, as in the code, from `AllAssigned` everywhere) a
block's bitset never *gains* a bit once cleared — the iteration is
monotonically descending.  Hypotheses are the well-formedness any real
code object satisfies: block ids enumerate positions (as
`create_blocks` produces them), the argument bits lie within the
`AllAssigned` mask, and every `STORE_FAST` operand is a real local
slot. -/
theorem C5_iteration_descending (cfg : CFG) (ops : List Op)
    (allA argsA : Nat) (hid : idsCanonical cfg)
    (hargs : ∀ i, argsA.testBit i = true → allA.testBit i = true)
    (hstore : ∀ o ∈ ops, o.op = STORE_FAST → allA.testBit o.arg = true)
    (k p i : Nat) :
    (((onePass cfg ops allA argsA)^[k + 1]
        (List.replicate cfg.blocks.length allA)).getD p 0).testBit i = true →
    (((onePass cfg ops allA argsA)^[k]
        (List.replicate cfg.blocks.length allA)).getD p 0).testBit i = true := by
  intro h
  have hInv := @dfIter_inv cfg ops allA argsA hid hargs hstore k
  have := (onePass_descending hid hInv).1 p i
  rw [Function.iterate_succ_apply'] at h
  exact this h

def c5ops : List Op := codeOps [(LOAD_CONST, 0), (RETURN_VALUE, 0)]

def c5cfg : CFG := ⟨[⟨0, 0, 2, [], []⟩]⟩

/-- Counterexample to C5 as frozen: on the one-block unit
`LOAD_CONST; RETURN_VALUE` with one local and no arguments, block 0's
bit 0 is set before the first sweep of the fixed-point iteration
(states start at `AllAssigned`) and is *lost* by that sweep — the
per-block bitset does lose a definitely-assigned bit that was set. -/
theorem C5_counterexample :
    create_blocks c5ops = .ok c5cfg ∧
    (((onePass c5cfg c5ops 1 0)^[0]
        (List.replicate c5cfg.blocks.length 1)).getD 0 0).testBit 0 = true ∧
    (((onePass c5cfg c5ops 1 0)^[1]
        (List.replicate c5cfg.blocks.length 1)).getD 0 0).testBit 0 = false := by
  refine ⟨by rfl, by rfl, by rfl⟩

/-- Witness for the amended C5 at the concrete one-block unit,
iteration step 0, block 0, bit 0, with the one local also an argument
so that its bit survives the first sweep. -/
theorem C5_iteration_descending_witness :
    (((onePass c5cfg c5ops 1 1)^[0]
        (List.replicate c5cfg.blocks.length 1)).getD 0 0).testBit 0 = true :=
  C5_iteration_descending c5cfg c5ops 1 1 (by rfl)
    (fun i h => h) (by decide) 0 0 0 (by rfl)

/-! ### C4: the CFG partition invariant -/

theorem startsList_sorted (instrs : List Op) :
    List.Pairwise (· < ·) (startsList instrs) :=
  (List.pairwise_lt_range _).sublist (List.filter_sublist _)

theorem zero_mem_startsList (instrs : List Op) : 0 ∈ startsList instrs := by
  unfold startsList
  rw [List.mem_filter]
  exact ⟨List.mem_range.mpr (Nat.succ_le_succ (Nat.zero_le _)),
    by unfold isBlockStart; simp⟩

theorem sorted_zero_head {l : List Nat} (hs : List.Pairwise (· < ·) l)
    (h0 : 0 ∈ l) : ∃ t, l = 0 :: t := by
  cases l with
  | nil => simp at h0
  | cons a t =>
    rcases List.mem_cons.mp h0 with h | h
    · exact ⟨t, by rw [← h]⟩
    · have := (List.pairwise_cons.mp hs).1 0 h
      omega

theorem mkRanges_fst_mem {n : Nat} : ∀ {l : List Nat} {pr : Nat × Nat},
    pr ∈ mkRanges n l → pr.1 ∈ l := by
  intro l
  induction l with
  | nil => intro pr h; simp [mkRanges] at h
  | cons s t ih =>
    intro pr h
    cases t with
    | nil =>
      simp [mkRanges] at h
      simp [h]
    | cons s' rest =>
      rw [mkRanges] at h
      rcases List.mem_cons.mp h with h | h
      · simp [h]
      · exact List.mem_cons_of_mem s (ih h)

theorem mkRanges_cover (n : Nat) : ∀ (l : List Nat) (k : Nat), l ≠ [] →
    l.headI ≤ k → k < n →
    ∃ pr, pr ∈ mkRanges n l ∧ pr.1 ≤ k ∧ k < pr.2 := by
  intro l
  induction l with
  | nil => intro k h; exact absurd rfl h
  | cons s t ih =>
    intro k _ hhd hk
    cases t with
    | nil => exact ⟨(s, n), by simp [mkRanges], hhd, hk⟩
    | cons s' rest =>
      by_cases hks : k < s'
      · exact ⟨(s, s'), by simp [mkRanges], hhd, hks⟩
      · obtain ⟨pr, hmem, h1, h2⟩ := ih k (by simp)
          (by simpa using Nat.le_of_not_lt hks) hk
        exact ⟨pr, by rw [mkRanges]; exact List.mem_cons_of_mem _ hmem, h1, h2⟩

theorem mkRanges_disjoint (n : Nat) : ∀ {l : List Nat},
    List.Pairwise (· < ·) l →
    List.Pairwise (fun p q => p.2 ≤ q.1) (mkRanges n l) := by
  intro l
  induction l with
  | nil => intro _; simp [mkRanges]
  | cons s t ih =>
    intro hs
    cases t with
    | nil => simp [mkRanges]
    | cons s' rest =>
      rw [mkRanges]
      have htail : List.Pairwise (· < ·) (s' :: rest) :=
        (List.pairwise_cons.mp hs).2
      refine List.pairwise_cons.mpr ⟨?_, ih htail⟩
      intro q hq
      have hq1 : q.1 ∈ s' :: rest := mkRanges_fst_mem hq
      rcases List.mem_cons.mp hq1 with h | h
      · omega
      · have := (List.pairwise_cons.mp htail).1 q.1 h
        omega

/-- Eliminate a successful `create_blocks` into its components. -/
theorem create_blocks_ok_elim {instrs : List Op} {cfg : CFG}
    (h : create_blocks instrs = .ok cfg) :
    ∃ succIdxs,
      (mkRanges instrs.length (startsList instrs)).mapM (rangeSuccs instrs) =
        .ok succIdxs ∧
      cfg.blocks = mkBlockList (startsList instrs)
        (mkRanges instrs.length (startsList instrs)) succIdxs := by
  unfold create_blocks at h
  rcases hm : (mkRanges instrs.length (startsList instrs)).mapM
      (rangeSuccs instrs) with e | succIdxs <;> rw [hm] at h
  · simp at h
  · refine ⟨succIdxs, rfl, ?_⟩
    injection h with h2
    rw [← h2]

theorem mem_mkBlockList {starts : List Nat} {ranges : List (Nat × Nat)}
    {succIdxs : List (List Nat)} {b : BB}
    (h : b ∈ mkBlockList starts ranges succIdxs) :
    ∃ i, ∃ (hi : i < ranges.length),
      b.id = i ∧ b.start = ranges[i].1 ∧ b.stop = ranges[i].2 := by
  unfold mkBlockList at h
  obtain ⟨i, hi, rfl⟩ := List.mem_map.mp h
  have hir := List.mem_range.mp hi
  exact ⟨i, hir, rfl, by rw [List.getD_eq_getElem ranges (0, 0) hir],
    by rw [List.getD_eq_getElem ranges (0, 0) hir]⟩

theorem mkBlockList_mem {starts : List Nat} {ranges : List (Nat × Nat)}
    {succIdxs : List (List Nat)} {i : Nat} (hi : i < ranges.length) :
    ∃ b ∈ mkBlockList starts ranges succIdxs,
      b.id = i ∧ b.start = ranges[i].1 ∧ b.stop = ranges[i].2 := by
  unfold mkBlockList
  refine ⟨_, List.mem_map_of_mem _ (List.mem_range.mpr hi), rfl,
    by rw [List.getD_eq_getElem ranges (0, 0) hi],
    by rw [List.getD_eq_getElem ranges (0, 0) hi]⟩

/-- C4: for any instruction stream on which `create_blocks` returns, the
blocks' instruction slices partition the stream — every instruction
index belongs to exactly one block — and every block's start position
is one of the recorded block-start positions. -/
theorem C4_partition (instrs : List Op) (cfg : CFG)
    (h : create_blocks instrs = .ok cfg) :
    (∀ k, k < instrs.length →
      ∃! b : BB, b ∈ cfg.blocks ∧ b.start ≤ k ∧ k < b.stop) ∧
    (∀ b ∈ cfg.blocks, b.start ∈ startsList instrs) := by
  obtain ⟨succIdxs, -, hblocks⟩ := create_blocks_ok_elim h
  have hsorted := startsList_sorted instrs
  have hdisj := mkRanges_disjoint instrs.length hsorted
  constructor
  · intro k hk
    obtain ⟨t, ht⟩ := sorted_zero_head hsorted (zero_mem_startsList instrs)
    obtain ⟨pr, hpr, h1, h2⟩ := mkRanges_cover instrs.length
      (startsList instrs) k (by rw [ht]; simp) (by rw [ht]; simp) hk
    obtain ⟨i, hi, hpi⟩ := List.mem_iff_getElem.mp hpr
    obtain ⟨b, hbmem, hbid, hbstart, hbstop⟩ :=
      @mkBlockList_mem (startsList instrs)
        (mkRanges instrs.length (startsList instrs)) succIdxs i hi
    refine ⟨b, ⟨by rw [hblocks]; exact hbmem,
      by rw [hbstart, hpi]; exact h1, by rw [hbstop, hpi]; exact h2⟩, ?_⟩
    rintro c ⟨hcmem, hc1, hc2⟩
    rw [hblocks] at hcmem
    obtain ⟨j, hj, hcid, hcstart, hcstop⟩ := mem_mkBlockList hcmem
    -- both the i-th and j-th ranges contain k, so i = j, hence c = b
    have hij : j = i := by
      by_contra hne
      rcases Nat.lt_or_ge j i with hlt | hge
      · have := List.pairwise_iff_getElem.mp hdisj j i hj hi hlt
        rw [hpi] at this
        omega
      · have hlt : i < j := Nat.lt_of_le_of_ne hge (fun hh => hne hh.symm)
        have := List.pairwise_iff_getElem.mp hdisj i j hi hj hlt
        rw [hpi] at this
        omega
    subst hij
    -- c and b are both the j-th entry of the block list
    obtain ⟨i', hi', hci'⟩ := List.mem_iff_getElem.mp hcmem
    obtain ⟨j', hj', hbj'⟩ := List.mem_iff_getElem.mp hbmem
    have hlen : (mkBlockList (startsList instrs)
        (mkRanges instrs.length (startsList instrs)) succIdxs).length =
        (mkRanges instrs.length (startsList instrs)).length := by
      unfold mkBlockList
      simp
    have hgetid : ∀ (m : Nat) (hm : m < (mkBlockList (startsList instrs)
        (mkRanges instrs.length (startsList instrs)) succIdxs).length),
        ((mkBlockList (startsList instrs)
          (mkRanges instrs.length (startsList instrs)) succIdxs)[m]).id = m := by
      intro m hm
      unfold mkBlockList
      simp
    have hieq : i' = c.id := by
      have := hgetid i' hi'
      rw [hci'] at this
      exact this.symm
    have hjeq : j' = b.id := by
      have := hgetid j' hj'
      rw [hbj'] at this
      exact this.symm
    have hij2 : i' = j' := by rw [hieq, hjeq, hcid, hbid]
    subst hij2
    exact hci'.symm.trans hbj'
  · intro b hb
    rw [hblocks] at hb
    obtain ⟨i, hi, -, hbstart, -⟩ := mem_mkBlockList hb
    rw [hbstart]
    exact mkRanges_fst_mem (List.getElem_mem hi)

def c4ops : List Op := codeOps
  [(LOAD_FAST, 0), (POP_JUMP_IF_FALSE, 8), (LOAD_CONST, 3), (STORE_FAST, 1),
   (LOAD_FAST, 1), (RETURN_VALUE, 0)]

def c4cfg : CFG :=
  ⟨[⟨0, 0, 2, [1, 2], []⟩, ⟨1, 2, 4, [2], [0]⟩, ⟨2, 4, 6, [], [0, 1]⟩]⟩

/-- Witness for C4 on the two-way-branch stream used by the compiler's
own tests. -/
theorem C4_partition_witness :
    (∀ k, k < c4ops.length →
      ∃! b : BB, b ∈ c4cfg.blocks ∧ b.start ≤ k ∧ k < b.stop) ∧
    (∀ b ∈ c4cfg.blocks, b.start ∈ startsList c4ops) :=
  C4_partition c4ops c4cfg (by rfl)

/-! ### C10: the empty tail block after a final branch -/

theorem mkRanges_length (n : Nat) : ∀ {l : List Nat}, l ≠ [] →
    (mkRanges n l).length = l.length := by
  intro l
  induction l with
  | nil => intro h; exact absurd rfl h
  | cons s t ih =>
    intro _
    cases t with
    | nil => rfl
    | cons s' rest =>
      rw [mkRanges, List.length_cons, ih (by simp)]
      rfl

theorem mkRanges_snd {n : Nat} : ∀ {l : List Nat} {pr : Nat × Nat},
    pr ∈ mkRanges n l → pr.2 = n ∨ pr.2 ∈ l := by
  intro l
  induction l with
  | nil => intro pr h; simp [mkRanges] at h
  | cons s t ih =>
    intro pr h
    cases t with
    | nil =>
      simp [mkRanges] at h
      simp [h]
    | cons s' rest =>
      rw [mkRanges] at h
      rcases List.mem_cons.mp h with h | h
      · right
        rw [h]
        simp
      · rcases ih h with h | h
        · exact Or.inl h
        · exact Or.inr (List.mem_cons_of_mem s h)

theorem mkRanges_getD_fst (n : Nat) : ∀ (l : List Nat) (p : Nat),
    p < l.length → ((mkRanges n l).getD p (0, 0)).1 = l.getD p 0 := by
  intro l
  induction l with
  | nil => intro p hp; simp at hp
  | cons s t ih =>
    intro p hp
    cases t with
    | nil =>
      have hp0 : p = 0 := by simpa using hp
      subst hp0
      rfl
    | cons s' rest =>
      rw [mkRanges]
      cases p with
      | zero => rfl
      | succ p =>
        rw [List.getD_cons_succ, List.getD_cons_succ]
        exact ih p (by simpa using hp)

theorem mkRanges_getD_last (n : Nat) : ∀ (l : List Nat), l ≠ [] →
    (mkRanges n l).getD (l.length - 1) (0, 0) = (l.getD (l.length - 1) 0, n) := by
  intro l
  induction l with
  | nil => intro h; exact absurd rfl h
  | cons s t ih =>
    intro _
    cases t with
    | nil => rfl
    | cons s' rest =>
      rw [mkRanges]
      have hlen : (s :: s' :: rest).length - 1 = ((s' :: rest).length - 1) + 1 := by
        simp
      rw [hlen, List.getD_cons_succ, List.getD_cons_succ]
      exact ih (by simp)

/-- In a strictly sorted list, an upper bound that is a member is the
last element. -/
theorem sorted_getD_last_eq {l : List Nat} (hs : List.Pairwise (· < ·) l)
    {x : Nat} (hx : x ∈ l) (hmax : ∀ y ∈ l, y ≤ x) :
    l.getD (l.length - 1) 0 = x := by
  have hne : l ≠ [] := by
    cases l
    · simp at hx
    · simp
  have hlt : l.length - 1 < l.length := by
    cases l
    · exact absurd rfl hne
    · simp
  rw [List.getD_eq_getElem l 0 hlt]
  obtain ⟨i, hi, rfl⟩ := List.mem_iff_getElem.mp hx
  have h1 : l[l.length - 1] ≤ l[i] := hmax _ (List.getElem_mem hlt)
  rcases Nat.lt_or_ge i (l.length - 1) with h | h
  · have := List.pairwise_iff_getElem.mp hs i (l.length - 1) hi hlt h
    omega
  · have : i = l.length - 1 := by omega
    subst this
    rfl

/-- All recorded block starts are at most the stream length, for a
well-indexed stream whose branch targets are in range. -/
theorem startsList_le {instrs : List Op}
    (hidx : ∀ i (h : i < instrs.length), instrs[i].idx = i)
    (htgt : ∀ o ∈ instrs, o.isBranch = true →
      o.jumpTargetIdx < instrs.length) :
    ∀ s ∈ startsList instrs, s ≤ instrs.length := by
  intro s hs
  unfold startsList at hs
  rw [List.mem_filter] at hs
  unfold isBlockStart at hs
  rcases Bool.or_eq_true_iff.mp hs.2 with h0 | hany
  · simp at h0
    omega
  · obtain ⟨o, ho, hcond⟩ := List.any_eq_true.mp hany
    obtain ⟨i, hi, rfl⟩ := List.mem_iff_getElem.mp ho
    have hidxi : instrs[i].idx = i := hidx i hi
    rcases Bool.or_eq_true_iff.mp hcond with hbr | hterm
    · obtain ⟨hbranch, hns⟩ := Bool.and_eq_true_iff.mp hbr
      rcases Bool.or_eq_true_iff.mp hns with hn | ht
      · have : instrs[i].nextInstrIdx = s := by simpa using hn
        unfold Op.nextInstrIdx at this
        omega
      · have : instrs[i].jumpTargetIdx = s := by simpa using ht
        have := htgt instrs[i] ho hbranch
        omega
    · obtain ⟨h1, h2⟩ := Bool.and_eq_true_iff.mp hterm
      have : instrs[i].nextInstrIdx < instrs.length := by simpa using h2
      obtain ⟨-, hn⟩ := Bool.and_eq_true_iff.mp h1
      have hns : instrs[i].nextInstrIdx = s := by simpa using hn
      omega

/-- The fallthrough position of a final branch — the stream length —
is recorded as a block start. -/
theorem len_mem_startsList {instrs : List Op} (hne : instrs ≠ [])
    (hidx : ∀ i (h : i < instrs.length), instrs[i].idx = i)
    (hlast : (instrs.getD (instrs.length - 1) ⟨0, 0, 0⟩).isBranch = true) :
    instrs.length ∈ startsList instrs := by
  have hn1 : 1 ≤ instrs.length := by
    cases instrs
    · exact absurd rfl hne
    · simp
  have hlt : instrs.length - 1 < instrs.length := by omega
  unfold startsList
  rw [List.mem_filter]
  refine ⟨List.mem_range.mpr (by omega), ?_⟩
  unfold isBlockStart
  rw [List.getD_eq_getElem _ _ hlt] at hlast
  refine Bool.or_eq_true_iff.mpr (Or.inr (List.any_eq_true.mpr
    ⟨instrs[instrs.length - 1], List.getElem_mem hlt, ?_⟩))
  refine Bool.or_eq_true_iff.mpr (Or.inl (Bool.and_eq_true_iff.mpr
    ⟨hlast, ?_⟩))
  refine Bool.or_eq_true_iff.mpr (Or.inl ?_)
  have : instrs[instrs.length - 1].nextInstrIdx = instrs.length := by
    unfold Op.nextInstrIdx
    rw [hidx _ hlt]
    omega
  simp [this]

theorem mapM_ok_of_ok {α β : Type} (f : α → Except String β) (g : α → β) :
    ∀ (l : List α), (∀ a ∈ l, f a = .ok (g a)) → l.mapM f = .ok (l.map g) := by
  intro l
  induction l with
  | nil => intro _; rfl
  | cons a l ih =>
    intro h
    rw [List.mapM_cons, h a (List.mem_cons_self a l),
      ih (fun b hb => h b (List.mem_cons_of_mem a hb))]
    rfl

theorem mkBlockList_length (starts : List Nat) (ranges : List (Nat × Nat))
    (succIdxs : List (List Nat)) :
    (mkBlockList starts ranges succIdxs).length = ranges.length := by
  unfold mkBlockList
  simp

theorem mkBlockList_getElem {starts : List Nat} {ranges : List (Nat × Nat)}
    {succIdxs : List (List Nat)} {i : Nat}
    (hi : i < (mkBlockList starts ranges succIdxs).length) :
    (mkBlockList starts ranges succIdxs)[i] =
      { id := i
        start := (ranges.getD i (0, 0)).1
        stop := (ranges.getD i (0, 0)).2
        succs := (succIdxs.map (fun l =>
          l.map (fun s => starts.indexOf s))).getD i []
        preds := (List.range ranges.length).filter
          (fun j => ((succIdxs.map (fun l =>
            l.map (fun s => starts.indexOf s))).getD j []).contains i) } := by
  unfold mkBlockList
  rw [List.getElem_map, List.getElem_range]

/-- C10: for a well-indexed stream whose last instruction is a branch
with all branch targets inside the stream, `create_blocks` records the
final branch's fallthrough index — the stream length — as a block
start; the returned map contains a final block whose slice is empty
(start = stop = stream length); no block lists that empty block as a
successor; yet the empty block's own successor computation reads the
stream's last instruction (which lies outside its empty slice) and
therefore links the empty block as a predecessor of the final branch's
jump-target block. -/
theorem C10_trailing_branch_empty_block (instrs : List Op)
    (hne : instrs ≠ [])
    (hidx : ∀ i (h : i < instrs.length), instrs[i].idx = i)
    (hlast : (instrs.getD (instrs.length - 1) ⟨0, 0, 0⟩).isBranch = true)
    (htgt : ∀ o ∈ instrs, o.isBranch = true →
      o.jumpTargetIdx < instrs.length) :
    instrs.length ∈ startsList instrs ∧
    ∃ cfg, create_blocks instrs = .ok cfg ∧
      ∃ bE ∈ cfg.blocks,
        bE.start = instrs.length ∧ bE.stop = instrs.length ∧
        (∀ b ∈ cfg.blocks, bE.id ∉ b.succs) ∧
        ∃ bT ∈ cfg.blocks,
          bT.start =
            (instrs.getD (instrs.length - 1) ⟨0, 0, 0⟩).jumpTargetIdx ∧
          bE.succs = [bT.id] ∧ bE.id ∈ bT.preds := by
  have hn1 : 1 ≤ instrs.length := by
    cases instrs
    · exact absurd rfl hne
    · simp
  have hn1lt : instrs.length - 1 < instrs.length := by omega
  have hlastget : instrs.getD (instrs.length - 1) ⟨0, 0, 0⟩ =
      instrs[instrs.length - 1] := List.getD_eq_getElem _ _ hn1lt
  rw [hlastget] at hlast
  rw [hlastget]
  have hsle := startsList_le hidx htgt
  have hnmem := len_mem_startsList hne hidx (by rw [hlastget]; exact hlast)
  have hsorted := startsList_sorted instrs
  set S := startsList instrs with hSdef
  have hsne : S ≠ [] := by
    intro h
    rw [h] at hnmem
    simp at hnmem
  set R := mkRanges instrs.length S with hRdef
  have hrlen : R.length = S.length := mkRanges_length instrs.length hsne
  have hm1 : 1 ≤ S.length := by
    cases hsl : S
    · exact absurd hsl hsne
    · simp
  have hlaststart : S.getD (S.length - 1) 0 = instrs.length :=
    sorted_getD_last_eq hsorted hnmem hsle
  have hrangelast : R.getD (S.length - 1) (0, 0) =
      (instrs.length, instrs.length) := by
    rw [hRdef, mkRanges_getD_last instrs.length S hsne, hlaststart]
  have hlastmem : instrs[instrs.length - 1] ∈ instrs := List.getElem_mem hn1lt
  have htlt : instrs[instrs.length - 1].jumpTargetIdx < instrs.length :=
    htgt _ hlastmem hlast
  have htmem : instrs[instrs.length - 1].jumpTargetIdx ∈ S := by
    rw [hSdef]
    unfold startsList
    rw [List.mem_filter]
    refine ⟨List.mem_range.mpr (by omega), ?_⟩
    unfold isBlockStart
    refine Bool.or_eq_true_iff.mpr (Or.inr (List.any_eq_true.mpr
      ⟨instrs[instrs.length - 1], hlastmem, ?_⟩))
    refine Bool.or_eq_true_iff.mpr (Or.inl (Bool.and_eq_true_iff.mpr
      ⟨hlast, Bool.or_eq_true_iff.mpr (Or.inr (by simp))⟩))
  have hitlt : S.indexOf instrs[instrs.length - 1].jumpTargetIdx < S.length :=
    List.indexOf_lt_length.mpr htmem
  have hstartsit : S[S.indexOf instrs[instrs.length - 1].jumpTargetIdx] =
      instrs[instrs.length - 1].jumpTargetIdx := List.getElem_indexOf hitlt
  have hfok : ∀ pr ∈ R, rangeSuccs instrs pr = .ok
      (((instrs.getD (pr.2 - 1) ⟨0, 0, 0⟩).successorIndices).filter
        (· < instrs.length)) := by
    intro pr hpr
    have hpr2 : pr.2 ≤ instrs.length := by
      rcases mkRanges_snd (hRdef ▸ hpr) with h | h
      · omega
      · exact hsle pr.2 h
    have hpr2lt : pr.2 - 1 < instrs.length := by omega
    unfold rangeSuccs sliceLast
    rw [List.get?_eq_getElem?, List.getElem?_eq_getElem hpr2lt,
      List.getD_eq_getElem _ _ hpr2lt]
  set G := R.map (fun pr =>
    ((instrs.getD (pr.2 - 1) (⟨0, 0, 0⟩ : Op)).successorIndices).filter
      (· < instrs.length)) with hGdef
  have hmapm : R.mapM (rangeSuccs instrs) = .ok G :=
    mapM_ok_of_ok _ _ R hfok
  set BL := mkBlockList S R G with hBLdef
  have hcb : create_blocks instrs = .ok ⟨BL⟩ := by
    unfold create_blocks
    rw [← hSdef, ← hRdef, hmapm]
  have hblen : BL.length = S.length := by
    rw [hBLdef, mkBlockList_length, hrlen]
  set SI := G.map (fun l => l.map (fun s => S.indexOf s)) with hSIdef
  set tix := S.indexOf instrs[instrs.length - 1].jumpTargetIdx with htix
  have hsuccD : ∀ j, j < S.length → SI.getD j [] =
      ((((instrs.getD ((R.getD j (0, 0)).2 - 1) ⟨0, 0, 0⟩).successorIndices).filter
        (· < instrs.length)).map (fun s => S.indexOf s)) := by
    intro j hj
    have hjr : j < R.length := by omega
    have h1 : SI[j]? = some
        ((((instrs.getD ((R.getD j (0, 0)).2 - 1) ⟨0, 0, 0⟩).successorIndices).filter
          (· < instrs.length)).map (fun s => S.indexOf s)) := by
      rw [hSIdef, List.getElem?_map, hGdef, List.getElem?_map,
        List.getElem?_eq_getElem hjr, List.getD_eq_getElem _ _ hjr]
      rfl
    rw [List.getD_eq_getElem?_getD, h1]
    rfl
  have hB? : ∀ j, j < S.length → BL[j]? = some
      { id := j
        start := (R.getD j (0, 0)).1
        stop := (R.getD j (0, 0)).2
        succs := SI.getD j []
        preds := (List.range R.length).filter
          (fun j2 => (SI.getD j2 []).contains j) } := by
    intro j hj
    have hj2 : j < (mkBlockList S R G).length := by
      rw [← hBLdef]
      omega
    rw [hBLdef, List.getElem?_eq_getElem hj2, mkBlockList_getElem hj2,
      ← hSIdef]
  have htoId_ne : ∀ s, s < instrs.length →
      S.indexOf s ≠ S.length - 1 := by
    intro s hslt heq
    by_cases hmem : s ∈ S
    · have hidxlt := List.indexOf_lt_length.mpr hmem
      have hD : S.getD (S.indexOf s) 0 = s := by
        rw [List.getD_eq_getElem _ _ hidxlt]
        exact List.getElem_indexOf hidxlt
      rw [heq, hlaststart] at hD
      omega
    · rw [List.indexOf_of_not_mem hmem] at heq
      omega
  have hEsuccs : SI.getD (S.length - 1) [] = [tix] := by
    rw [hsuccD _ (by omega), hrangelast]
    have hnext : instrs[instrs.length - 1].nextInstrIdx = instrs.length := by
      unfold Op.nextInstrIdx
      rw [hidx _ hn1lt]
      omega
    show (((instrs.getD (instrs.length - 1) ⟨0, 0, 0⟩).successorIndices).filter
        (· < instrs.length)).map (fun s => S.indexOf s) = _
    rw [hlastget]
    unfold Op.successorIndices
    rw [if_pos hlast]
    by_cases hu : instrs[instrs.length - 1].isUnconditionalBranch = true
    · rw [if_pos hu]
      simp [htlt, htix]
    · rw [if_neg hu]
      simp [hnext, htlt, htix]
  have hEq : BL[S.length - 1]? = some
      { id := S.length - 1
        start := instrs.length
        stop := instrs.length
        succs := [tix]
        preds := (List.range R.length).filter
          (fun j2 => (SI.getD j2 []).contains (S.length - 1)) } := by
    rw [hB? _ (by omega), hrangelast, hEsuccs]
  have hstartT : (R.getD tix (0, 0)).1 =
      instrs[instrs.length - 1].jumpTargetIdx := by
    rw [hRdef, htix, mkRanges_getD_fst instrs.length S _ hitlt,
      List.getD_eq_getElem _ _ hitlt, hstartsit]
  have hTq : BL[tix]? = some
      { id := tix
        start := instrs[instrs.length - 1].jumpTargetIdx
        stop := (R.getD tix (0, 0)).2
        succs := SI.getD tix []
        preds := (List.range R.length).filter
          (fun j2 => (SI.getD j2 []).contains tix) } := by
    rw [hB? _ (by omega), hstartT]
  refine ⟨hnmem, _, hcb, _, List.getElem?_mem hEq, rfl, rfl, ?_,
    _, List.getElem?_mem hTq, rfl, rfl, ?_⟩
  · intro b hb
    obtain ⟨j, hj, hbj⟩ := List.mem_iff_getElem.mp hb
    have hj2 : j < BL.length := hj
    have hbq : BL[j]? = some b := by
      rw [List.getElem?_eq_getElem hj, hbj]
    rw [hB? j (by omega)] at hbq
    have hbrec := Option.some.inj hbq
    have hsucc : b.succs = SI.getD j [] := by
      rw [← hbrec]
    show S.length - 1 ∉ b.succs
    rw [hsucc, hsuccD j (by omega)]
    intro hmem
    obtain ⟨s, hs, hseq⟩ := List.mem_map.mp hmem
    have hslt : s < instrs.length := by
      have := List.of_mem_filter hs
      simpa using this
    exact htoId_ne s hslt hseq
  · show S.length - 1 ∈ (List.range R.length).filter
      (fun j2 => (SI.getD j2 []).contains tix)
    rw [List.mem_filter]
    refine ⟨List.mem_range.mpr (by omega), ?_⟩
    rw [hEsuccs]
    simp

def c10ops : List Op := [⟨JUMP_ABSOLUTE, 0, 0⟩]

/-- Witness for C10 on the one-instruction stream `JUMP_ABSOLUTE 0`:
the empty block `[1, 1)` reads the jump as its last instruction and
becomes a predecessor of block 0. -/
theorem C10_trailing_branch_empty_block_witness :
    c10ops.length ∈ startsList c10ops ∧
    ∃ cfg, create_blocks c10ops = .ok cfg ∧
      ∃ bE ∈ cfg.blocks,
        bE.start = c10ops.length ∧ bE.stop = c10ops.length ∧
        (∀ b ∈ cfg.blocks, bE.id ∉ b.succs) ∧
        ∃ bT ∈ cfg.blocks,
          bT.start =
            (c10ops.getD (c10ops.length - 1) ⟨0, 0, 0⟩).jumpTargetIdx ∧
          bE.succs = [bT.id] ∧ bE.id ∈ bT.preds :=
  C10_trailing_branch_empty_block c10ops (by simp [c10ops])
    (fun i h => by
      have h0 : i = 0 := by
        simp [c10ops] at h
        omega
      subst h0
      rfl)
    (by decide) (by decide)

/-! ### C6: layout of a successful rewrite with a nonempty prelude -/

theorem mem_insertSorted {x a : Nat} : ∀ {l : List Nat},
    a ∈ insertSorted x l ↔ a = x ∨ a ∈ l := by
  intro l
  induction l with
  | nil => simp [insertSorted]
  | cons y ys ih =>
    unfold insertSorted
    by_cases h1 : x < y
    · simp [h1]
    · rw [if_neg h1]
      by_cases h2 : x = y
      · rw [if_pos h2]
        subst h2
        simp
      · rw [if_neg h2]
        simp [ih]
        tauto

theorem pairwise_insertSorted {x : Nat} : ∀ {l : List Nat},
    List.Pairwise (· < ·) l → List.Pairwise (· < ·) (insertSorted x l) := by
  intro l
  induction l with
  | nil => intro _; simp [insertSorted]
  | cons y ys ih =>
    intro hp
    obtain ⟨hy, hys⟩ := List.pairwise_cons.mp hp
    unfold insertSorted
    by_cases h1 : x < y
    · rw [if_pos h1]
      refine List.pairwise_cons.mpr ⟨?_, hp⟩
      intro z hz
      rcases List.mem_cons.mp hz with h | h
      · omega
      · have := hy z h
        omega
    · rw [if_neg h1]
      by_cases h2 : x = y
      · rw [if_pos h2]
        exact hp
      · rw [if_neg h2]
        refine List.pairwise_cons.mpr ⟨?_, ih hys⟩
        intro z hz
        rcases mem_insertSorted.mp hz with h | h
        · omega
        · exact hy z h

/-- The invariant of the `conditionally_assigned` accumulator: sorted
ascending, and only non-argument slots. -/
def condOK (argc : Nat) (cond : List Nat) : Prop :=
  List.Pairwise (· < ·) cond ∧ ∀ s ∈ cond, argc ≤ s

theorem condOK_nil (argc : Nat) : condOK argc [] := ⟨List.Pairwise.nil, by simp⟩

theorem condOK_insertSorted {argc x : Nat} {l : List Nat} (hx : argc ≤ x)
    (h : condOK argc l) : condOK argc (insertSorted x l) := by
  refine ⟨pairwise_insertSorted h.1, ?_⟩
  intro s hs
  rcases mem_insertSorted.mp hs with h2 | h2
  · omega
  · exact h.2 s h2

theorem modifyStep_cond {argc : Nat} {s : List Op × List Nat × Nat}
    {i : Nat} (h : condOK argc s.2.1) :
    condOK argc ((modifyStep argc s i).2.1) := by
  unfold modifyStep
  rcases s.1.get? i with _ | o
  · exact h
  · dsimp only
    by_cases h1 : o.op = LOAD_FAST
    · rw [if_pos h1]
      by_cases h2 : s.2.2.testBit o.arg
      · rw [if_pos h2]
        exact h
      · rw [if_neg h2]
        by_cases h3 : argc ≤ o.arg
        · rw [if_pos h3]
          exact condOK_insertSorted h3 h
        · rw [if_neg h3]
          exact h
    · rw [if_neg h1]
      exact h

theorem foldl_modifyStep_cond {argc : Nat} :
    ∀ (l : List Nat) (s : List Op × List Nat × Nat), condOK argc s.2.1 →
    condOK argc ((l.foldl (modifyStep argc) s).2.1) := by
  intro l
  induction l with
  | nil => exact fun s h => h
  | cons i l ih => exact fun s h => ih _ (modifyStep_cond h)

theorem modifyPass_cond (cfg : CFG) (allA argsA argc : Nat) (ops : List Op)
    (live : List Nat) :
    condOK argc (modifyPass cfg allA argsA argc ops live).2.1 := by
  unfold modifyPass
  suffices hgen : ∀ (bl : List BB) (st : List Op × List Nat × List Nat),
      condOK argc st.2.1 →
      condOK argc ((bl.foldl (fun st b => modifyBlock allA argsA argc b st) st)).2.1 from
    hgen cfg.blocks (ops, [], live) (condOK_nil argc)
  intro bl
  induction bl with
  | nil => exact fun st h => h
  | cons b bl ih =>
    intro st h
    refine ih _ ?_
    unfold modifyBlock
    exact foldl_modifyStep_cond _ _ h

/-- How the `modify=True` sweep relates the mutated instruction list to
the decoded original: operands and positions unchanged, each opcode
either unchanged or a `LOAD_FAST` turned into `LOAD_FAST_UNCHECKED`. -/
def opsRel (base cur : List Op) : Prop :=
  cur.length = base.length ∧
  ∀ i, (cur.getD i ⟨0, 0, 0⟩).arg = (base.getD i ⟨0, 0, 0⟩).arg ∧
    (cur.getD i ⟨0, 0, 0⟩).idx = (base.getD i ⟨0, 0, 0⟩).idx ∧
    ((cur.getD i ⟨0, 0, 0⟩).op = (base.getD i ⟨0, 0, 0⟩).op ∨
      ((base.getD i ⟨0, 0, 0⟩).op = LOAD_FAST ∧
       (cur.getD i ⟨0, 0, 0⟩).op = LOAD_FAST_UNCHECKED))

theorem opsRel_refl (l : List Op) : opsRel l l :=
  ⟨rfl, fun _ => ⟨rfl, rfl, Or.inl rfl⟩⟩

theorem modifyStep_ops {base : List Op} {argc : Nat}
    {s : List Op × List Nat × Nat} {i : Nat} (h : opsRel base s.1) :
    opsRel base ((modifyStep argc s i).1) := by
  unfold modifyStep
  rcases hget : s.1.get? i with _ | o
  · exact h
  · dsimp only
    have hio : i < s.1.length ∧ s.1.getD i ⟨0, 0, 0⟩ = o := by
      have h1 := List.get?_eq_some.mp hget
      obtain ⟨hlt, hval⟩ := h1
      exact ⟨hlt, by rw [List.getD_eq_getElem _ _ hlt]; exact hval⟩
    by_cases h1 : o.op = LOAD_FAST
    · rw [if_pos h1]
      by_cases h2 : s.2.2.testBit o.arg
      · rw [if_pos h2]
        refine ⟨by rw [List.length_set]; exact h.1, ?_⟩
        intro j
        by_cases hij : i = j
        · subst hij
          rw [getD_set_self hio.1]
          obtain ⟨harg, hidx, hop⟩ := h.2 i
          rw [hio.2] at harg hidx hop
          refine ⟨harg, hidx, Or.inr ⟨?_, rfl⟩⟩
          rcases hop with hop | hop
          · rw [← hop]
            exact h1
          · exact hop.1
        · rw [getD_set_ne hij]
          exact h.2 j
      · rw [if_neg h2]
        by_cases h3 : argc ≤ o.arg
        · rw [if_pos h3]
          exact h
        · rw [if_neg h3]
          exact h
    · rw [if_neg h1]
      exact h

theorem foldl_modifyStep_ops {base : List Op} {argc : Nat} :
    ∀ (l : List Nat) (s : List Op × List Nat × Nat), opsRel base s.1 →
    opsRel base ((l.foldl (modifyStep argc) s).1) := by
  intro l
  induction l with
  | nil => exact fun s h => h
  | cons i l ih => exact fun s h => ih _ (modifyStep_ops h)

theorem modifyPass_ops (cfg : CFG) (allA argsA argc : Nat) (ops : List Op)
    (live : List Nat) :
    opsRel ops (modifyPass cfg allA argsA argc ops live).1 := by
  unfold modifyPass
  suffices hgen : ∀ (bl : List BB) (st : List Op × List Nat × List Nat),
      opsRel ops st.1 →
      opsRel ops ((bl.foldl (fun st b => modifyBlock allA argsA argc b st) st)).1 from
    hgen cfg.blocks (ops, [], live) (opsRel_refl ops)
  intro bl
  induction bl with
  | nil => exact fun st h => h
  | cons b bl ih =>
    intro st h
    refine ih _ ?_
    unfold modifyBlock
    exact foldl_modifyStep_ops _ _ h

theorem emitOps_some {shift : Nat} : ∀ {l : List Op} {r : List (Nat × Nat)},
    emitOps shift l = some r →
    r = l.map (fun o => (o.op,
      if hasjabs.contains o.op then o.arg + shift else o.arg)) := by
  intro l
  induction l with
  | nil =>
    intro r h
    unfold emitOps at h
    simp at h
    simp [h]
  | cons o l ih =>
    intro r h
    unfold emitOps at h
    dsimp only at h
    by_cases hc : hasjabs.contains o.op = true
    · rw [if_pos hc] at h
      by_cases h256 : 256 ≤ o.arg + shift
      · rw [if_pos h256] at h
        exact absurd h (by simp)
      · rw [if_neg h256] at h
        obtain ⟨r', hr', hrr⟩ := Option.map_eq_some'.mp h
        rw [List.map_cons, if_pos hc, ← ih hr', ← hrr]
    · rw [if_neg hc] at h
      by_cases h256 : 256 ≤ o.arg
      · rw [if_pos h256] at h
        exact absurd h (by simp)
      · rw [if_neg h256] at h
        obtain ⟨r', hr', hrr⟩ := Option.map_eq_some'.mp h
        rw [List.map_cons, if_neg hc, ← ih hr', ← hrr]

theorem olfStages_ok_elim {codeList : List (Nat × Nat)} {W A : Nat}
    {ops' : List Op} {cond : List Nat}
    (h : olfStages codeList W A = .ok (ops', cond)) :
    ∃ cfg, create_blocks (codeOps codeList) = .ok cfg ∧
      olfAfterCFG cfg (codeOps codeList) W A = (ops', cond) := by
  unfold olfStages at h
  rcases hc : create_blocks (codeOps codeList) with e | cfg <;> rw [hc] at h
  · simp at h
  · refine ⟨cfg, rfl, ?_⟩
    injection h

theorem codeOps_length (cl : List (Nat × Nat)) :
    (codeOps cl).length = cl.length := by
  simp [codeOps]

theorem codeOps_getD {cl : List (Nat × Nat)} {i : Nat} (h : i < cl.length) :
    (codeOps cl).getD i ⟨0, 0, 0⟩ =
      ⟨(cl.getD i (0, 0)).1, (cl.getD i (0, 0)).2, i⟩ := by
  have h2 : i < (codeOps cl).length := by rw [codeOps_length]; exact h
  rw [List.getD_eq_getElem _ _ h2, List.getD_eq_getElem _ _ h]
  unfold codeOps
  rw [List.getElem_map, List.getElem_enum]

/-- C6: when the pass does not bail out and at least one slot is
conditionally assigned, the output bytecode begins with one
`DELETE_FAST_UNCHECKED` clear per conditionally-assigned slot, all of
them non-argument slots, in ascending slot order; it is followed by the
instruction sequence in original order and length, in which every
absolute-jump operand has been increased by exactly the prelude's
length in bytes (number of clears times the code-unit size), all other
operands are unchanged, and each opcode is the original one except for
`LOAD_FAST` reads rewritten to `LOAD_FAST_UNCHECKED`. -/
theorem C6_success_layout (codeList : List (Nat × Nat)) (W A : Nat)
    (ops' : List Op) (cond : List Nat) (bc : List (Nat × Nat))
    (h1 : olfStages codeList W A = .ok (ops', cond))
    (h2 : emitBytecode cond ops' = some bc)
    (h3 : cond ≠ []) :
    List.Pairwise (· < ·) cond ∧
    (∀ s ∈ cond, A ≤ s) ∧
    bc = cond.map (fun s => (DELETE_FAST_UNCHECKED, s)) ++
      ops'.map (fun o => (o.op,
        if hasjabs.contains o.op then o.arg + cond.length * CODEUNIT_SIZE
        else o.arg)) ∧
    ops'.length = codeList.length ∧
    (∀ i, i < codeList.length →
      (ops'.getD i ⟨0, 0, 0⟩).arg = (codeList.getD i (0, 0)).2 ∧
      ((ops'.getD i ⟨0, 0, 0⟩).op = (codeList.getD i (0, 0)).1 ∨
        ((codeList.getD i (0, 0)).1 = LOAD_FAST ∧
         (ops'.getD i ⟨0, 0, 0⟩).op = LOAD_FAST_UNCHECKED))) := by
  obtain ⟨cfg, hcfg, hafter⟩ := olfStages_ok_elim h1
  have hops' : ops' = (modifyPass cfg (2 ^ W - 1) (2 ^ A - 1) A
      (codeOps codeList) (dfLoop cfg (codeOps codeList) (2 ^ W - 1)
        (2 ^ A - 1) (cfg.blocks.length * W + 1)
        (List.replicate cfg.blocks.length (2 ^ W - 1)))).1 := by
    have := congrArg Prod.fst hafter
    simp only [olfAfterCFG] at this
    exact this.symm
  have hcond : cond = (modifyPass cfg (2 ^ W - 1) (2 ^ A - 1) A
      (codeOps codeList) (dfLoop cfg (codeOps codeList) (2 ^ W - 1)
        (2 ^ A - 1) (cfg.blocks.length * W + 1)
        (List.replicate cfg.blocks.length (2 ^ W - 1)))).2.1 := by
    have := congrArg Prod.snd hafter
    simp only [olfAfterCFG] at this
    exact this.symm
  have hcondOK : condOK A cond := by
    rw [hcond]
    exact modifyPass_cond _ _ _ _ _ _
  have hrel : opsRel (codeOps codeList) ops' := by
    rw [hops']
    exact modifyPass_ops _ _ _ _ _ _
  have hshift : (if cond.isEmpty then 0 else cond.length * CODEUNIT_SIZE) =
      cond.length * CODEUNIT_SIZE := by
    cases cond with
    | nil => exact absurd rfl h3
    | cons c cs => rfl
  have hbc : bc = cond.map (fun s => (DELETE_FAST_UNCHECKED, s)) ++
      ops'.map (fun o => (o.op,
        if hasjabs.contains o.op then o.arg + cond.length * CODEUNIT_SIZE
        else o.arg)) := by
    unfold emitBytecode at h2
    rw [hshift] at h2
    obtain ⟨r', hr', hrr⟩ := Option.map_eq_some'.mp h2
    rw [← hrr, emitOps_some hr']
  refine ⟨hcondOK.1, hcondOK.2, hbc, by rw [hrel.1, codeOps_length], ?_⟩
  intro i hi
  obtain ⟨harg, -, hop⟩ := hrel.2 i
  rw [codeOps_getD hi] at harg hop
  exact ⟨harg, hop⟩

def c6code : List (Nat × Nat) :=
  [(LOAD_FAST, 0), (POP_JUMP_IF_FALSE, 8), (LOAD_CONST, 3), (STORE_FAST, 1),
   (LOAD_FAST, 1), (RETURN_VALUE, 0)]

def c6ops : List Op :=
  [⟨LOAD_FAST_UNCHECKED, 0, 0⟩, ⟨POP_JUMP_IF_FALSE, 8, 1⟩, ⟨LOAD_CONST, 3, 2⟩,
   ⟨STORE_FAST, 1, 3⟩, ⟨LOAD_FAST, 1, 4⟩, ⟨RETURN_VALUE, 0, 5⟩]

def c6bc : List (Nat × Nat) :=
  [(DELETE_FAST_UNCHECKED, 1), (LOAD_FAST_UNCHECKED, 0),
   (POP_JUMP_IF_FALSE, 10), (LOAD_CONST, 3), (STORE_FAST, 1), (LOAD_FAST, 1),
   (RETURN_VALUE, 0)]

/-- Witness for C6 on the one-armed-conditional unit from the
compiler's tests (`def foo(cond): if cond: x = 3; return x`): the
prelude clears slot 1 and the absolute jump operand 8 becomes 10. -/
theorem C6_success_layout_witness :
    List.Pairwise (· < ·) [1] ∧
    (∀ s ∈ [1], 1 ≤ s) ∧
    c6bc = [1].map (fun s => (DELETE_FAST_UNCHECKED, s)) ++
      c6ops.map (fun o => (o.op,
        if hasjabs.contains o.op then o.arg + [1].length * CODEUNIT_SIZE
        else o.arg)) ∧
    c6ops.length = c6code.length ∧
    (∀ i, i < c6code.length →
      (c6ops.getD i ⟨0, 0, 0⟩).arg = (c6code.getD i (0, 0)).2 ∧
      ((c6ops.getD i ⟨0, 0, 0⟩).op = (c6code.getD i (0, 0)).1 ∨
        ((c6code.getD i (0, 0)).1 = LOAD_FAST ∧
         (c6ops.getD i ⟨0, 0, 0⟩).op = LOAD_FAST_UNCHECKED))) :=
  C6_success_layout c6code 2 1 c6ops [1] c6bc (by rfl) (by rfl) (by decide)

/-! ### C1: zero-predecessor reads in the SSA builder -/

theorem alookup_aset_self {α : Type} (k : Nat) (v : α) :
    ∀ (l : List (Nat × α)), alookup k (aset k v l) = some v := by
  intro l
  induction l with
  | nil => simp [aset, alookup]
  | cons p ps ih =>
    unfold aset
    by_cases h : p.1 = k
    · rw [if_pos h]
      simp [alookup]
    · rw [if_neg h]
      unfold alookup
      rw [if_neg h]
      exact ih

def c1st1 : SSAState := ⟨[(7, [])], [], [], 4, 0⟩

/-- Counterexample to C1: after `write_variable` then `delete_variable`
on variable 7 at the entry block, the variable's per-block map is
present but empty; a read of that variable at the entry block — a block
with zero predecessors — does not synthesize an `Undef` sentinel (the
synthesis only runs when the variable has no entry in `current_def` at
all) and instead reaches `read_variable_recursive`, whose
`assert len(self.preds[block]) != 0` fails: the builder raises on this
use-before-definition read. -/
theorem C1_counterexample :
    deleteVariable 7 0 (writeVariable 7 0 3 ⟨[], [], [], 4, 0⟩) = .ok c1st1 ∧
    readVar (fun _ => []) 0 5 7 0 c1st1 = .error .assertFail := by
  constructor
  · rfl
  · rw [show (5 : Nat) = 4 + 1 from rfl, readVar]
    simp [alookup, c1st1]

/-- C1 amended: when the variable has no definition recorded in any
block (`variable not in current_def`) and the queried block is the
entry block, `read_variable` synthesizes an `Undef` sentinel value,
records it as the entry block's definition of the variable, emits it
into the entry SSA block, and returns it without raising — for any
recursion budget. -/
theorem C1_amended_undef_at_entry (preds : Nat → List Nat)
    (entry var fuel : Nat) (st : SSAState)
    (h : alookup var st.currentDef = none) :
    ∃ st', readVar preds entry (fuel + 1) var entry st = .ok (st.counter, st') ∧
      alookup st.counter st'.store = some ⟨"Undef", []⟩ ∧
      alookup var st'.currentDef = some [(entry, st.counter)] ∧
      alookup entry st'.emitted =
        some ((alookup entry st.emitted).getD [] ++ [st.counter]) := by
  rw [readVar, if_pos h]
  simp only [writeVariable, apush, h, Option.getD, alookup_aset_self, alookup]
  refine ⟨_, rfl, ?_, ?_, ?_⟩
  · simp [alookup_aset_self]
  · simp [alookup_aset_self, aset]
  · simp [alookup_aset_self]

def c1st0 : SSAState := ⟨[], [], [], 0, 0⟩

/-- Witness for the amended C1: reading the never-written variable 7 at
the entry block of a predecessor-less CFG yields the fresh `Undef`
value 0. -/
theorem C1_amended_undef_at_entry_witness :
    ∃ st', readVar (fun _ => []) 0 (2 + 1) 7 0 c1st0 = .ok (c1st0.counter, st') ∧
      alookup c1st0.counter st'.store = some ⟨"Undef", []⟩ ∧
      alookup 7 st'.currentDef = some [(0, c1st0.counter)] ∧
      alookup 0 st'.emitted =
        some ((alookup 0 c1st0.emitted).getD [] ++ [c1st0.counter]) :=
  C1_amended_undef_at_entry (fun _ => []) 0 7 2 c1st0 (by rfl)

/-! ### C9: single back-edge loop termination in the SSA builder -/

/-- The single back-edge loop CFG: entry 0 → header 1 → body 2, with
the back edge 2 → 1; predecessors as the SSA builder consumes them. -/
def loopPreds : Nat → List Nat :=
  fun b => if b = 1 then [0, 2] else if b = 2 then [1] else []

/-- C9: on a single back-edge loop whose body reads the loop-carried
variable, the recursive lookup terminates for every recursion budget of
at least 4 (uniformly in the budget, hence no unbounded recursion): the
phi created at the two-predecessor header is recorded as the header's
definition before the predecessors are visited, so the recursive read
re-entering the header returns the in-progress phi itself — visible as
the phi's second operand being the phi — instead of recursing again.
Quantified over the variable `x` and the value `v` it has at the entry
block. -/
theorem C9_loop_read_terminates (x v f : Nat) :
    ∃ st', readVar loopPreds 0 (f + 4) x 2 ⟨[(x, [(0, v)])], [], [], v + 1, 2⟩ =
        .ok (v + 1, st') ∧
      alookup (v + 1) st'.store = some ⟨"Phi", [v, v + 1]⟩ := by
  rw [show f + 4 = f + 3 + 1 from rfl, readVar]
  simp [alookup, loopPreds, writeVariable, apush, aset]
  rw [show f + 3 = f + 2 + 1 from rfl, readVar]
  simp [alookup, loopPreds, writeVariable, apush, aset]
  rw [readVarPreds, show f + 2 = f + 1 + 1 from rfl, readVar]
  simp [alookup, loopPreds, writeVariable, apush, aset, appendPhiArg]
  rw [readVarPreds, readVar]
  simp [alookup, loopPreds, writeVariable, apush, aset, appendPhiArg]
  rw [show f + 1 = f + 0 + 1 from rfl, readVar]
  simp [alookup, loopPreds, writeVariable, apush, aset, appendPhiArg]
  rw [readVarPreds]
  exact ⟨_, rfl, by simp [alookup]⟩

/-! ### C8: printf-rewriter bailouts -/

theorem hasUnknownCv_cons_other {c : Char} (rest : List Char) (hc : ¬c = '%') :
    hasUnknownCv (c :: rest) = hasUnknownCv rest := by
  rw [hasUnknownCv, if_neg hc]

theorem hasUnknownCv_cons_percent {rest spec : List Char} {hw : Bool}
    {conv : Char} {rest' : List Char}
    (heq : parseSpec rest = some (spec, hw, conv, rest')) :
    hasUnknownCv ('%' :: rest) =
      if conv = '%' then hasUnknownCv rest'
      else if knownCv conv then hasUnknownCv rest' else true := by
  rw [hasUnknownCv, if_pos rfl]
  split
  · rename_i heq2
    rw [heq] at heq2
    simp at heq2
  · rename_i spec2 hw2 conv2 rest2' heq2
    rw [heq] at heq2
    simp only [Option.some.injEq, Prod.mk.injEq] at heq2
    obtain ⟨h1, h2, h3, h4⟩ := heq2
    subst h1; subst h2; subst h3; subst h4
    rfl

theorem specConsume_cons_other {c : Char} (rest : List Char) (hc : ¬c = '%') :
    specConsume (c :: rest) = specConsume rest := by
  rw [specConsume, if_neg hc]

theorem specConsume_cons_percent {rest spec : List Char} {hw : Bool}
    {conv : Char} {rest' : List Char}
    (heq : parseSpec rest = some (spec, hw, conv, rest')) :
    specConsume ('%' :: rest) =
      if conv = '%' then specConsume rest'
      else if knownCv conv then (specConsume rest').map (· + 1)
      else none := by
  rw [specConsume, if_pos rfl]
  split
  · rename_i heq2
    rw [heq] at heq2
    simp at heq2
  · rename_i spec2 hw2 conv2 rest2' heq2
    rw [heq] at heq2
    simp only [Option.some.injEq, Prod.mk.injEq] at heq2
    obtain ⟨h1, h2, h3, h4⟩ := heq2
    subst h1; subst h2; subst h3; subst h4
    rfl

theorem specNode_eq_none {rhsVals : Option (List PExpr)} {rhs : PExpr}
    {nv vIdx : Nat} {spec : List Char} {hw : Bool} {conv : Char}
    (hk : knownCv conv = false) :
    specNode rhsVals rhs nv vIdx spec hw conv = none := by
  have k1 : ¬(conv = 's' ∨ conv = 'r' ∨ conv = 'a') := by
    rintro (rfl | rfl | rfl) <;> exact absurd hk (by decide)
  have k2 : ¬(conv = 'd' ∨ conv = 'i' ∨ conv = 'u') := by
    rintro (rfl | rfl | rfl) <;> exact absurd hk (by decide)
  have k3 : ¬(conv = 'x' ∨ conv = 'X' ∨ conv = 'o') := by
    rintro (rfl | rfl | rfl) <;> exact absurd hk (by decide)
  unfold specNode
  rcases rhsVals with _ | vals
  · simp [k1, k2, k3]
  · by_cases hle : nv ≤ vIdx
    · simp [hle]
    · simp [hle, k1, k2, k3]

theorem specNode_known {rhsVals : Option (List PExpr)} {rhs : PExpr}
    {nv vIdx : Nat} {spec : List Char} {hw : Bool} {conv : Char}
    {node : PExpr}
    (h : specNode rhsVals rhs nv vIdx spec hw conv = some node) :
    knownCv conv = true := by
  by_contra hk
  have hk' : knownCv conv = false := by simpa using hk
  rw [specNode_eq_none hk'] at h
  simp at h

theorem countSpecs_none_of_badScan :
    ∀ (N : Nat) (fmt : List Char), fmt.length ≤ N →
      fmtBadScan fmt = true → countSpecs fmt = none := by
  intro N
  induction N with
  | zero =>
    intro fmt hlen hbad
    have hnil : fmt = [] := List.eq_nil_of_length_eq_zero (Nat.le_zero.mp hlen)
    subst hnil
    simp [fmtBadScan] at hbad
  | succ N ih =>
    intro fmt hlen hbad
    cases fmt with
    | nil => simp [fmtBadScan] at hbad
    | cons c rest =>
      by_cases hc : c = '%'
      · cases rest with
        | nil => simp [countSpecs, hc]
        | cons c2 rest2 =>
          have hlen2 : rest2.length ≤ N := by
            simp only [List.length_cons] at hlen; omega
          by_cases h2 : c2 = '%'
          · simp only [fmtBadScan, if_pos hc, if_pos h2] at hbad
            simp only [countSpecs, if_pos hc, if_pos h2]
            exact ih rest2 hlen2 hbad
          · by_cases h3 : c2 = '('
            · simp [countSpecs, hc, h2, h3]
            · simp only [fmtBadScan, if_pos hc, if_neg h2, if_neg h3] at hbad
              simp only [countSpecs, if_pos hc, if_neg h2, if_neg h3]
              rw [ih rest2 hlen2 hbad]
              rfl
      · cases rest with
        | nil => simp [fmtBadScan, hc] at hbad
        | cons c2 rest2 =>
          simp only [fmtBadScan, if_neg hc] at hbad
          simp only [countSpecs, if_neg hc]
          exact ih (c2 :: rest2)
            (by simp only [List.length_cons] at hlen ⊢; omega) hbad

theorem emitLoop_none_of_unknownCv :
    ∀ (N : Nat) (fmt : List Char) (rhsVals : Option (List PExpr))
      (rhs : PExpr) (nv vIdx : Nat) (seg : List Char) (acc : List PExpr),
      fmt.length ≤ N → hasUnknownCv fmt = true →
      emitLoop rhsVals rhs nv fmt vIdx seg acc = none := by
  intro N
  induction N with
  | zero =>
    intro fmt _ _ _ _ _ _ hlen hunk
    have hnil : fmt = [] := List.eq_nil_of_length_eq_zero (Nat.le_zero.mp hlen)
    subst hnil
    simp [hasUnknownCv] at hunk
  | succ N ih =>
    intro fmt rhsVals rhs nv vIdx seg acc hlen hunk
    cases fmt with
    | nil => simp [hasUnknownCv] at hunk
    | cons c rest =>
      have hrest : rest.length ≤ N := by
        simp only [List.length_cons] at hlen; omega
      by_cases hc : c = '%'
      · subst hc
        rw [emitLoop, if_pos rfl]
        split
      -- parseSpec failed: the loop bails regardless
        · rfl
        · rename_i spec hw conv rest' heq
          have hlen' : rest'.length ≤ N :=
            Nat.le_of_lt (Nat.lt_of_lt_of_le (parseSpec_length heq) hrest)
          rw [hasUnknownCv_cons_percent heq] at hunk
          by_cases hcv : conv = '%'
          · rw [if_pos hcv] at hunk ⊢
            exact ih rest' rhsVals rhs nv vIdx ['%'] _ hlen' hunk
          · rw [if_neg hcv] at hunk ⊢
            split
            · rfl
            · rename_i node heqN
              rw [if_pos (specNode_known heqN)] at hunk
              exact ih rest' rhsVals rhs nv (vIdx + 1) [] _ hlen' hunk
      · rw [emitLoop, if_neg hc]
        rw [hasUnknownCv_cons_other rest hc] at hunk
        exact ih rest rhsVals rhs nv vIdx (seg ++ [c]) acc hrest hunk

theorem emitLoop_consume :
    ∀ (N : Nat) (fmt : List Char) (rhsVals : Option (List PExpr))
      (rhs : PExpr) (nv vIdx : Nat) (seg : List Char) (acc strs : List PExpr)
      (vEnd : Nat),
      fmt.length ≤ N →
      emitLoop rhsVals rhs nv fmt vIdx seg acc = some (strs, vEnd) →
      ∃ k, specConsume fmt = some k ∧ vEnd = vIdx + k := by
  intro N
  induction N with
  | zero =>
    intro fmt _ _ _ _ _ _ _ _ hlen h
    have hnil : fmt = [] := List.eq_nil_of_length_eq_zero (Nat.le_zero.mp hlen)
    subst hnil
    rw [emitLoop] at h
    simp only [Option.some.injEq, Prod.mk.injEq] at h
    exact ⟨0, by rw [specConsume], by omega⟩
  | succ N ih =>
    intro fmt rhsVals rhs nv vIdx seg acc strs vEnd hlen h
    cases fmt with
    | nil =>
      rw [emitLoop] at h
      simp only [Option.some.injEq, Prod.mk.injEq] at h
      exact ⟨0, by rw [specConsume], by omega⟩
    | cons c rest =>
      have hrest : rest.length ≤ N := by
        simp only [List.length_cons] at hlen; omega
      by_cases hc : c = '%'
      · subst hc
        rw [emitLoop, if_pos rfl] at h
        split at h
        · simp at h
        · rename_i spec hw conv rest' heq
          have hlen' : rest'.length ≤ N :=
            Nat.le_of_lt (Nat.lt_of_lt_of_le (parseSpec_length heq) hrest)
          by_cases hcv : conv = '%'
          · rw [if_pos hcv] at h
            obtain ⟨k, hk, hv⟩ :=
              ih rest' rhsVals rhs nv vIdx ['%'] _ strs vEnd hlen' h
            exact ⟨k, by rw [specConsume_cons_percent heq, if_pos hcv]; exact hk,
              hv⟩
          · rw [if_neg hcv] at h
            split at h
            · simp at h
            · rename_i node heqN
              obtain ⟨k, hk, hv⟩ :=
                ih rest' rhsVals rhs nv (vIdx + 1) [] _ strs vEnd hlen' h
              refine ⟨k + 1, ?_, by omega⟩
              rw [specConsume_cons_percent heq, if_neg hcv,
                if_pos (specNode_known heqN), hk]
              rfl
      · rw [emitLoop, if_neg hc] at h
        obtain ⟨k, hk, hv⟩ :=
          ih rest rhsVals rhs nv vIdx (seg ++ [c]) acc strs vEnd hrest h
        exact ⟨k, by rw [specConsume_cons_other rest hc]; exact hk, hv⟩

/-- C8 counterexample: the frozen claim says the rewriter returns
`None` whenever the format string contains an unknown conversion
letter, but when the right-hand side is itself a constant the
constant-folding fast path runs first and never inspects the
conversion letters the scanner knows: `"%c" % 65` — whose `c` is a
conversion the emission loop does not handle, hence "unknown" to the
scanner — is folded to the string literal `"A"` instead of being left
un-rewritten. -/
theorem C8_counterexample :
    hasUnknownCv ['%', 'c'] = true ∧
    rewrite_str_mod ['%', 'c'] (.num 65) = some (.str ['A']) := by
  constructor
  · rw [hasUnknownCv_cons_percent
      (show parseSpec ['c'] = some ([], false, 'c', []) from rfl)]
    rw [if_neg (by decide), if_neg (by decide)]
  · rfl

/-- C8 (amended): once the initial constant-folding attempt has failed
(`foldAttempt … = none`, i.e. the right-hand side is not foldable to a
constant result), `rewrite_str_mod` returns `none` — keeping the
original, un-rewritten node — whenever (1) the format string has a
trailing unescaped `%` or a mapping-key `%(`; (2) it contains an
unknown conversion letter; (3) the right-hand side is a literal tuple
and the number of value-consuming specifiers differs from the tuple's
element count; or (4) the right-hand side is not a literal tuple and
the first loop's specifier count differs from exactly one. -/
theorem C8_scanner_bailouts (fmt : List Char) (right : PExpr)
    (hfold : foldAttempt fmt right = none) :
    (fmtBadScan fmt = true → rewrite_str_mod fmt right = none) ∧
    (hasUnknownCv fmt = true → rewrite_str_mod fmt right = none) ∧
    (∀ es, tupleElts right = some es → specConsume fmt ≠ some es.length →
      rewrite_str_mod fmt right = none) ∧
    (tupleElts right = none → countSpecs fmt ≠ some 1 →
      rewrite_str_mod fmt right = none) := by
  refine ⟨?_, ?_, ?_, ?_⟩
  · intro hbad
    have hcs := countSpecs_none_of_badScan fmt.length fmt le_rfl hbad
    simp [rewrite_str_mod, hfold, hcs]
  · intro hunk
    have hE : ∀ rv nv, emitLoop rv right nv fmt 0 [] [] = none := fun rv nv =>
      emitLoop_none_of_unknownCv fmt.length fmt rv right nv 0 [] [] le_rfl hunk
    cases hcs : countSpecs fmt with
    | none => simp [rewrite_str_mod, hfold, hcs]
    | some n =>
      cases ht : tupleElts right with
      | none => simp [rewrite_str_mod, hfold, hcs, ht, hE]
      | some es => simp [rewrite_str_mod, hfold, hcs, ht, hE]
  · intro es hte hne
    cases hcs : countSpecs fmt with
    | none => simp [rewrite_str_mod, hfold, hcs]
    | some n =>
      cases hE : emitLoop (some es) right es.length fmt 0 [] [] with
      | none => simp [rewrite_str_mod, hfold, hcs, hte, hE]
      | some p =>
        obtain ⟨strs, vEnd⟩ := p
        obtain ⟨k, hk, hv⟩ := emitLoop_consume fmt.length fmt (some es) right
          es.length 0 [] [] strs vEnd le_rfl hE
        have hne' : vEnd ≠ es.length := by
          intro hcontra
          apply hne
          rw [hk]
          congr 1
          omega
        simp [rewrite_str_mod, hfold, hcs, hte, hE, hne']
  · intro hte hn1
    cases hcs : countSpecs fmt with
    | none => simp [rewrite_str_mod, hfold, hcs]
    | some n =>
      have hn : n ≠ 1 := by
        intro hcontra
        exact hn1 (by rw [hcs, hcontra])
      simp [rewrite_str_mod, hfold, hcs, hte, hn]

/-- Witness for C8 at a mapping-key format string `"%(a)s"` with a
non-constant right-hand side: constant folding fails, and the first
scanning loop's `%(` rejection makes the rewriter return `none`. -/
theorem C8_scanner_bailouts_witness :
    rewrite_str_mod ['%', '(', 'a', ')', 's'] (.name "x") = none :=
  (C8_scanner_bailouts ['%', '(', 'a', ')', 's'] (.name "x") (by rfl)).1
    (by rfl)

end Skybison
